import Mathlib

/-!
Verification of the blueprint extraction engine against its specification.

This file shallowly embeds the core data structures and algorithms of the
engine (geometry, spatial rules, scoring, the results serialisation, the
Peeker / PeekingHeap / Smerger merge machinery and the bound-tree mass
accounting) as executable Lean definitions over exact rationals, and proves
or refutes the specification claims about them.

Modelling conventions:
- Python floats are modelled as exact rationals; all arithmetic claims are
  settled exactly, which subsumes the 1e-9 float tolerance of the spec.
- Python functions that raise are modelled as returning `Except String`
  (for `RuntimeError` / `ValueError`) or `Option` (for graceful `None`).
- Python iterators are modelled as lists of the elements they will yield.
- The binary min-heaps of the `heapq` module are modelled as unordered
  buffers with a deterministic extract-min operation: which element of a
  tie is popped first differs from CPython, but every property proved here
  is insensitive to the order in which equal elements are popped.
-/

namespace Blueprint

/-! ## Geometry (geometry.py) -/

/-- A closed rational interval, as in `geometry.Interval`. -/
structure Interval where
  a : ℚ
  b : ℚ
deriving DecidableEq, Repr

/-- Interval length `b - a`. -/
def Interval.length (I : Interval) : ℚ := I.b - I.a

/-- Interval midpoint `(b + a) / 2`. -/
def Interval.center (I : Interval) : ℚ := (I.b + I.a) / 2

/-- Validity check `a <= b`. -/
def Interval.valid (I : Interval) : Bool := decide (I.a ≤ I.b)

/-- Positive-length check. -/
def Interval.nonEmpty (I : Interval) : Bool := decide (0 < I.length)

/-- Membership `a <= x <= b`. -/
def Interval.containsQ (I : Interval) (x : ℚ) : Bool :=
  decide (I.a ≤ x ∧ x ≤ I.b)

/-- Containment test `self.a <= other.a <= other.b <= self.b`. -/
def Interval.containsInterval (I J : Interval) : Bool :=
  decide (I.a ≤ J.a ∧ J.a ≤ J.b ∧ J.b ≤ I.b)

/-- Intersection test `not (self.b < other.a or other.b < self.a)`. -/
def Interval.intersectsInterval (I J : Interval) : Bool :=
  !(decide (I.b < J.a) || decide (J.b < I.a))

/-- Checked constructor: `Interval(a, b)` when `a <= b`, absent otherwise. -/
def Interval.build (a b : ℚ) : Option Interval :=
  if a ≤ b then some ⟨a, b⟩ else none

/-- Erosion by `amount` on both sides; absent when the result is empty. -/
def Interval.eroded (I : Interval) (amount : ℚ) : Option Interval :=
  let result : Interval := ⟨I.a + amount, I.b - amount⟩
  if result.nonEmpty then some result else none

/-- Expansion by `amount` on both sides. -/
def Interval.expanded (I : Interval) (amount : ℚ) : Interval :=
  ⟨I.a - amount, I.b + amount⟩

/-- Smallest interval containing all points of a nonempty list;
`Interval.spanning` raises `RuntimeError` on an empty input. -/
def Interval.spanningE (xs : List ℚ) : Except String Interval :=
  match xs with
  | [] => .error "RuntimeError: cannot take the spanning interval of an empty list of points"
  | x :: rest => .ok ⟨rest.foldl min x, rest.foldl max x⟩

/-- The interval `[max a_i, min b_i]` of a nonempty family, given as head and
tail; absent when the family is disjoint. This is the body of
`Interval.intersection` after its emptiness check. -/
def Interval.intersectionCore (I : Interval) (Is : List Interval) : Option Interval :=
  Interval.build (Is.foldl (fun m J => max m J.a) I.a) (Is.foldl (fun m J => min m J.b) I.b)

/-- Intersection of a list of intervals; `Interval.intersection` raises
`RuntimeError` on an empty input, and returns `None` for disjoint inputs. -/
def Interval.intersectionE (Is : List Interval) : Except String (Option Interval) :=
  match Is with
  | [] => .error "RuntimeError: cannot take the intersection of an empty list of intervals"
  | I :: rest => .ok (Interval.intersectionCore I rest)

/-- The spanning interval of the endpoints of a list of intervals
(`Interval.spanning_intervals`); raises on an empty input like
`Interval.spanning`. -/
def Interval.spanningIntervalsE (Is : List Interval) : Except String Interval :=
  Interval.spanningE (Is.flatMap (fun I => [I.a, I.b]))

/-- A point of the plane, as in `geometry.Point`. -/
structure Point where
  x : ℚ
  y : ℚ
deriving DecidableEq, Repr

/-- An axis-aligned box: a pair of intervals, as in `geometry.BBox`. -/
structure BBox where
  ix : Interval
  iy : Interval
deriving DecidableEq, Repr

/-- Box width. -/
def BBox.width (b : BBox) : ℚ := b.ix.length

/-- Box height. -/
def BBox.height (b : BBox) : ℚ := b.iy.length

/-- Box area. -/
def BBox.area (b : BBox) : ℚ := b.width * b.height

/-- Box center. -/
def BBox.center (b : BBox) : Point := ⟨b.ix.center, b.iy.center⟩

/-- Validity: both intervals valid. -/
def BBox.valid (b : BBox) : Bool := b.ix.valid && b.iy.valid

/-- Point membership. -/
def BBox.containsPoint (b : BBox) (p : Point) : Bool :=
  b.ix.containsQ p.x && b.iy.containsQ p.y

/-- Box containment, axiswise. -/
def BBox.containsBBox (b other : BBox) : Bool :=
  b.ix.containsInterval other.ix && b.iy.containsInterval other.iy

/-- Box intersection test, axiswise. -/
def BBox.intersectsBBox (b other : BBox) : Bool :=
  b.ix.intersectsInterval other.ix && b.iy.intersectsInterval other.iy

/-- The four corners of a box. -/
def BBox.corners (b : BBox) : List Point :=
  [⟨b.ix.a, b.iy.a⟩, ⟨b.ix.a, b.iy.b⟩, ⟨b.ix.b, b.iy.b⟩, ⟨b.ix.b, b.iy.a⟩]

/-- Checked constructor from optional axes. -/
def BBox.build (ix iy : Option Interval) : Option BBox :=
  match ix, iy with
  | some ix, some iy => some ⟨ix, iy⟩
  | _, _ => none

/-- Smallest box containing all the points; absent for an empty input
(`BBox.spanning`). -/
def BBox.spanningPoints (ps : List Point) : Option BBox :=
  match ps with
  | [] => none
  | p :: rest =>
    some ⟨⟨rest.foldl (fun m q => min m q.x) p.x, rest.foldl (fun m q => max m q.x) p.x⟩,
          ⟨rest.foldl (fun m q => min m q.y) p.y, rest.foldl (fun m q => max m q.y) p.y⟩⟩

/-- Intersection of a list of boxes: absent for an empty input, and for
disjoint inputs (`BBox.intersection`). The inner interval intersections are
taken over nonempty lists, so the `RuntimeError` branch of
`Interval.intersection` is unreachable from here. -/
def BBox.intersectionList (bs : List BBox) : Option BBox :=
  match bs with
  | [] => none
  | b :: rest =>
    match Interval.intersectionCore b.ix (rest.map BBox.ix),
          Interval.intersectionCore b.iy (rest.map BBox.iy) with
    | some ix, some iy => some ⟨ix, iy⟩
    | _, _ => none

/-- Smallest box containing all the boxes (`BBox.union`): the spanning box of
all their corners; absent for an empty input. -/
def BBox.unionList (bs : List BBox) : Option BBox :=
  BBox.spanningPoints (bs.flatMap BBox.corners)

/-- C7 counterexample: contrary to the claim that `Interval.intersection` and
`Interval.spanning` applied to empty iterables return an absent value, both
raise `RuntimeError` on an empty input. -/
theorem C7_counterexample_interval_empty_raises :
    (∃ msg, Interval.intersectionE [] = .error msg) ∧
    (∃ msg, Interval.spanningE [] = .error msg) ∧
    ¬ (∃ v, Interval.intersectionE [] = .ok v) := by
  refine ⟨⟨_, rfl⟩, ⟨_, rfl⟩, ?_⟩
  rintro ⟨v, h⟩
  simp [Interval.intersectionE] at h

/-- The running maximum of left endpoints dominates its seed and every
element of the family. -/
theorem foldl_max_a_ge (Is : List Interval) (s : ℚ) :
    s ≤ Is.foldl (fun m J => max m J.a) s ∧
    ∀ J ∈ Is, J.a ≤ Is.foldl (fun m J => max m J.a) s := by
  induction Is generalizing s with
  | nil => exact ⟨le_refl s, by simp⟩
  | cons K rest ih =>
    refine ⟨le_trans (le_max_left s K.a) (ih (max s K.a)).1, ?_⟩
    intro J hJ
    rcases List.mem_cons.mp hJ with rfl | h
    · exact le_trans (le_max_right s J.a) (ih (max s J.a)).1
    · exact (ih (max s K.a)).2 J h

/-- The running minimum of right endpoints is below its seed and every
element of the family. -/
theorem foldl_min_b_le (Is : List Interval) (s : ℚ) :
    Is.foldl (fun m J => min m J.b) s ≤ s ∧
    ∀ J ∈ Is, Is.foldl (fun m J => min m J.b) s ≤ J.b := by
  induction Is generalizing s with
  | nil => exact ⟨le_refl s, by simp⟩
  | cons K rest ih =>
    refine ⟨le_trans (ih (min s K.b)).1 (min_le_left s K.b), ?_⟩
    intro J hJ
    rcases List.mem_cons.mp hJ with rfl | h
    · exact le_trans (ih (min s J.b)).1 (min_le_right s J.b)
    · exact (ih (min s K.b)).2 J h

/-- A disjoint pair in the family forces `Interval.intersection` onto its
absent branch. -/
theorem interval_intersectionCore_disjoint (I : Interval) (rest : List Interval)
    (J K : Interval) (hJ : J ∈ I :: rest) (hK : K ∈ I :: rest) (hdisj : J.b < K.a) :
    Interval.intersectionCore I rest = none := by
  have hKa : K.a ≤ rest.foldl (fun m J => max m J.a) I.a := by
    rcases List.mem_cons.mp hK with rfl | h
    · exact (foldl_max_a_ge rest _).1
    · exact (foldl_max_a_ge rest _).2 K h
  have hJb : rest.foldl (fun m J => min m J.b) I.b ≤ J.b := by
    rcases List.mem_cons.mp hJ with rfl | h
    · exact (foldl_min_b_le rest _).1
    · exact (foldl_min_b_le rest _).2 J h
  have hnot : ¬(rest.foldl (fun m J => max m J.a) I.a ≤
      rest.foldl (fun m J => min m J.b) I.b) := by
    intro hle
    linarith
  unfold Interval.intersectionCore Interval.build
  rw [if_neg hnot]

/-- A disjoint pair of boxes forces `BBox.intersection` onto its absent
branch. -/
theorem bbox_intersectionList_disjoint (b : BBox) (rest : List BBox) (J K : BBox)
    (hJ : J ∈ b :: rest) (hK : K ∈ b :: rest)
    (hdisj : BBox.intersectsBBox J K = false) :
    BBox.intersectionList (b :: rest) = none := by
  have hmemx : ∀ c : BBox, c ∈ b :: rest → c.ix ∈ b.ix :: rest.map BBox.ix := by
    intro c hc
    rcases List.mem_cons.mp hc with rfl | h
    · exact List.mem_cons_self _ _
    · exact List.mem_cons_of_mem _ (List.mem_map_of_mem _ h)
  have hmemy : ∀ c : BBox, c ∈ b :: rest → c.iy ∈ b.iy :: rest.map BBox.iy := by
    intro c hc
    rcases List.mem_cons.mp hc with rfl | h
    · exact List.mem_cons_self _ _
    · exact List.mem_cons_of_mem _ (List.mem_map_of_mem _ h)
  have hcases : (J.ix.b < K.ix.a ∨ K.ix.b < J.ix.a) ∨
      (J.iy.b < K.iy.a ∨ K.iy.b < J.iy.a) := by
    simp only [BBox.intersectsBBox, Interval.intersectsInterval,
      Bool.and_eq_false_iff, Bool.not_eq_false', Bool.or_eq_true,
      decide_eq_true_eq] at hdisj
    exact hdisj
  rcases hcases with hx | hy
  · have hxnone : Interval.intersectionCore b.ix (rest.map BBox.ix) = none := by
      rcases hx with h | h
      · exact interval_intersectionCore_disjoint b.ix (rest.map BBox.ix) J.ix K.ix
          (hmemx J hJ) (hmemx K hK) h
      · exact interval_intersectionCore_disjoint b.ix (rest.map BBox.ix) K.ix J.ix
          (hmemx K hK) (hmemx J hJ) h
    simp [BBox.intersectionList, hxnone]
  · have hynone : Interval.intersectionCore b.iy (rest.map BBox.iy) = none := by
      rcases hy with h | h
      · exact interval_intersectionCore_disjoint b.iy (rest.map BBox.iy) J.iy K.iy
          (hmemy J hJ) (hmemy K hK) h
      · exact interval_intersectionCore_disjoint b.iy (rest.map BBox.iy) K.iy J.iy
          (hmemy K hK) (hmemy J hJ) h
    cases hxc : Interval.intersectionCore b.ix (rest.map BBox.ix) with
    | none => simp [BBox.intersectionList, hxc]
    | some ixv => simp [BBox.intersectionList, hxc, hynone]

/-- C7 amended: every `Interval` and `BBox` operation is pure, and all are
total except `Interval.intersection` and `Interval.spanning` (hence
`Interval.spanning_intervals`), which raise `RuntimeError` exactly on empty
input and return a value on every nonempty input; the `BBox` collection
operations return an absent value on empty input, and `Interval.intersection`
and `BBox.intersection` return an absent value on disjoint nonempty inputs. -/
theorem C7_amended_geometry_totality (Is : List Interval) (xs : List ℚ)
    (hIs : Is ≠ []) (hxs : xs ≠ []) :
    (∃ v, Interval.intersectionE Is = .ok v) ∧
    (∃ I, Interval.spanningE xs = .ok I) ∧
    (∃ I', Interval.spanningIntervalsE Is = .ok I') ∧
    (∃ msg, Interval.spanningIntervalsE ([] : List Interval) = .error msg) ∧
    (∀ (I : Interval) (rest : List Interval) (J K : Interval), J ∈ I :: rest →
      K ∈ I :: rest → J.b < K.a → Interval.intersectionE (I :: rest) = .ok none) ∧
    (∀ (bx : BBox) (rest : List BBox) (J K : BBox), J ∈ bx :: rest → K ∈ bx :: rest →
      BBox.intersectsBBox J K = false → BBox.intersectionList (bx :: rest) = none) ∧
    BBox.intersectionList [] = none ∧
    BBox.spanningPoints [] = none ∧
    BBox.unionList [] = none := by
  refine ⟨?_, ?_, ?_, ⟨_, rfl⟩, ?_, ?_, rfl, rfl, rfl⟩
  · match Is with
    | [] => exact absurd rfl hIs
    | I :: rest => exact ⟨_, rfl⟩
  · match xs with
    | [] => exact absurd rfl hxs
    | x :: rest => exact ⟨_, rfl⟩
  · match Is with
    | [] => exact absurd rfl hIs
    | I :: rest => exact ⟨_, rfl⟩
  · intro I rest J K hJ hK hdisj
    show Except.ok (Interval.intersectionCore I rest) = Except.ok none
    rw [interval_intersectionCore_disjoint I rest J K hJ hK hdisj]
  · intro bx rest J K hJ hK hdisj
    exact bbox_intersectionList_disjoint bx rest J K hJ hK hdisj

/-- Witness for the amended C7 theorem at concrete inputs: nonempty
families for the totality conjuncts and disjoint families for the absent
intersections. -/
theorem C7_amended_witness :
    (∃ v, Interval.intersectionE [⟨0, 2⟩, ⟨1, 3⟩] = .ok v) ∧
    (∃ I, Interval.spanningE [1, 5, 3] = .ok I) ∧
    (∃ I', Interval.spanningIntervalsE [⟨0, 2⟩, ⟨1, 3⟩] = .ok I') ∧
    (∃ msg, Interval.spanningIntervalsE ([] : List Interval) = .error msg) ∧
    Interval.intersectionE [⟨0, 1⟩, ⟨2, 3⟩] = .ok none ∧
    BBox.intersectionList [⟨⟨0, 1⟩, ⟨0, 1⟩⟩, ⟨⟨2, 3⟩, ⟨0, 1⟩⟩] = none ∧
    BBox.intersectionList [] = none ∧
    BBox.spanningPoints [] = none ∧
    BBox.unionList [] = none := by
  obtain ⟨h1, h2, h3, h4, h5, h6, h7, h8, h9⟩ :=
    C7_amended_geometry_totality [⟨0, 2⟩, ⟨1, 3⟩] [1, 5, 3] (by decide) (by decide)
  exact ⟨h1, h2, h3, h4,
    h5 ⟨0, 1⟩ [⟨2, 3⟩] ⟨0, 1⟩ ⟨2, 3⟩ (by decide) (by decide) (by norm_num),
    h6 ⟨⟨0, 1⟩, ⟨0, 1⟩⟩ [⟨⟨2, 3⟩, ⟨0, 1⟩⟩] ⟨⟨0, 1⟩, ⟨0, 1⟩⟩ ⟨⟨2, 3⟩, ⟨0, 1⟩⟩
      (by decide) (by decide) (by decide), h7, h8, h9⟩

/-! ## Document model (document.py) -/

/-- A field identifier. -/
abbrev Field := String

/-- A document, reduced to the data the spatial rules consume: its bounding
box and its (cached) median line height. -/
structure Document where
  bbox : BBox
  medianLineHeight : ℚ
deriving DecidableEq

/-- A rectangular region of a document (`document.DocRegion`). -/
structure DocRegion where
  document : Document
  bbox : BBox
deriving DecidableEq

/-- Containment of one optional region in another
(`DocRegion.contains_doc_region`): `None` regions are contained in
everything. -/
def DocRegion.containsDocRegion (D : DocRegion) (other : Option DocRegion) : Bool :=
  match other with
  | none => true
  | some o => D.bbox.containsBBox o.bbox

/-- Gather a list of optional regions, failing on the first `None`
(the loop at the top of `DocRegion.intersection`). -/
def collectSome : List (Option DocRegion) → Option (List DocRegion)
  | [] => some []
  | none :: _ => none
  | some d :: rest => (collectSome rest).map (d :: ·)

/-- Intersection of a family of optional regions
(`DocRegion.intersection`): `None` if any member is `None` or the family is
empty, otherwise the box intersection on the first member's document. -/
def DocRegion.intersectionList (drs : List (Option DocRegion)) : Option DocRegion :=
  match collectSome drs with
  | none => none
  | some [] => none
  | some (d :: rest) =>
    (BBox.intersectionList ((d :: rest).map DocRegion.bbox)).map (fun bb => ⟨d.document, bb⟩)

/-- An entity, reduced to the datum the spatial predicates consume: its
bounding box. -/
structure SEntity where
  bbox : BBox
deriving DecidableEq

/-! ## Spatial formulas (spatial_formula.py) -/

/-- A term naming a field's document region, optionally post-composed with a
geometric transformation (`spatial_formula.DocRegionTerm`). -/
structure DocRegionTerm where
  field : Field
  transformation : Option (DocRegion → Option DocRegion) := none

/-- A spatial formula (`spatial_formula.Formula`): a propositional formula
whose literals are boolean constants, `Intersect`, or `IsContained`. -/
inductive Formula where
  | const (b : Bool)
  | intersect (terms : List DocRegionTerm)
  | isContained (lhs rhs : DocRegionTerm)
  | conj (fs : List Formula)
  | disj (fs : List Formula)

/-- Modelled from the spec: the document region denoted by a term, given an
assignment of each field to a bounding box; the transformation attached to
the term, if any, is applied to the region. -/
def DocRegionTerm.region (doc : Document) (env : Field → BBox) (t : DocRegionTerm) : Option DocRegion :=
  let D : DocRegion := ⟨doc, env t.field⟩
  match t.transformation with
  | none => some D
  | some f => f D

/-- Modelled from the spec: evaluation of a spatial formula over an
assignment of fields to bounding boxes. The source defines formulas and
their DNF but no standalone evaluator; per the spec, an `Intersect` literal
holds when the intersection of the named document regions is non-empty, and
an `IsContained` literal when the first region is contained in the second. -/
def Formula.eval (doc : Document) (env : Field → BBox) : Formula → Bool
  | .const b => b
  | .intersect ts => (DocRegion.intersectionList (ts.map (DocRegionTerm.region doc env))).isSome
  | .isContained l r =>
    match DocRegionTerm.region doc env l, DocRegionTerm.region doc env r with
    | none, _ => true
    | some _, none => false
    | some L, some R => R.containsDocRegion (some L)
  | .conj fs => fs.attach.all (fun f => Formula.eval doc env f.1)
  | .disj fs => fs.attach.any (fun f => Formula.eval doc env f.1)
decreasing_by
  all_goals
    simp only [Formula.conj.sizeOf_spec, Formula.disj.sizeOf_spec]
    have := List.sizeOf_lt_of_mem f.2
    omega

/-! ## Spatial rules (rules/spatial.py) -/

/-- The two-piece taper of `spatial._taper_error`: scores an error through a
plateau of width `tolerance` followed by a linear ramp of width `taper`. -/
def taperError (rawError tolerance taper : ℚ) : ℚ :=
  let error := max 0 (rawError - tolerance)
  if error = 0 then 1
  else if taper = 0 then 0
  else |1 - min 1 (error / taper)|

/-- Conversion of a schema-level length to document pixels
(`spatial._length_in_native_units`). -/
def lengthInNativeUnits (lengthFromSchema : ℚ) (doc : Document) : ℚ :=
  lengthFromSchema * doc.medianLineHeight

/-- An alignment anchor (`spatial.AlignmentLine`). -/
inductive AlignmentLine where
  | leftSides
  | bottoms
  | horizontalMidlines
  | rightSides
  | tops
  | verticalMidlines
deriving DecidableEq, Repr

/-- The `AreAligned` predicate's parameters. -/
structure AreAligned where
  anchors : AlignmentLine
  tolerance : ℚ
  taper : ℚ
deriving DecidableEq

/-- The pair of anchor coordinates `r1, r2` read off the two boxes in
`AreAligned.score`. -/
def AreAligned.anchorPair (anchors : AlignmentLine) (B1 B2 : BBox) : ℚ × ℚ :=
  match anchors with
  | .leftSides => (B1.ix.a, B2.ix.a)
  | .rightSides => (B1.ix.b, B2.ix.b)
  | .bottoms => (B1.iy.b, B2.iy.b)
  | .tops => (B1.iy.a, B2.iy.a)
  | .horizontalMidlines => (B1.iy.center, B2.iy.center)
  | .verticalMidlines => (B1.ix.center, B2.ix.center)

/-- The score of `AreAligned` on two entities: the anchor-distance error put
through the two-piece taper, with tolerance and taper in native units. -/
def AreAligned.score (P : AreAligned) (E1 E2 : SEntity) (doc : Document) : ℚ :=
  let B1 := E1.bbox
  let B2 := E2.bbox
  let r := AreAligned.anchorPair P.anchors B1 B2
  taperError |r.1 - r.2| (lengthInNativeUnits P.tolerance doc) (lengthInNativeUnits P.taper doc)

/-- The band of total width `2 * (tolerance + taper)` (in native units)
centred on a region's anchor line (`AreAligned._band`), spanning the whole
document in the other axis. -/
def AreAligned.band (P : AreAligned) (D : DocRegion) : DocRegion :=
  let radius := lengthInNativeUnits (P.tolerance + P.taper) D.document
  match P.anchors with
  | .leftSides =>
    ⟨D.document, ⟨⟨D.bbox.ix.a - radius, D.bbox.ix.a + radius⟩, D.document.bbox.iy⟩⟩
  | .rightSides =>
    ⟨D.document, ⟨⟨D.bbox.ix.b - radius, D.bbox.ix.b + radius⟩, D.document.bbox.iy⟩⟩
  | .verticalMidlines =>
    ⟨D.document, ⟨⟨D.bbox.ix.center - radius, D.bbox.ix.center + radius⟩, D.document.bbox.iy⟩⟩
  | .tops =>
    ⟨D.document, ⟨D.document.bbox.ix, ⟨D.bbox.iy.a - radius, D.bbox.iy.a + radius⟩⟩⟩
  | .bottoms =>
    ⟨D.document, ⟨D.document.bbox.ix, ⟨D.bbox.iy.b - radius, D.bbox.iy.b + radius⟩⟩⟩
  | .horizontalMidlines =>
    ⟨D.document, ⟨D.document.bbox.ix, ⟨D.bbox.iy.center - radius, D.bbox.iy.center + radius⟩⟩⟩

/-- The weakening formula of `AreAligned` (`AreAligned.phi`): each entity's
box must intersect the band around the other entity's anchor line. -/
def AreAligned.phi (P : AreAligned) (F1 F2 : Field) : Formula :=
  .conj [.intersect [⟨F1, some (fun D => some (P.band D))⟩, ⟨F2, none⟩],
         .intersect [⟨F2, some (fun D => some (P.band D))⟩, ⟨F1, none⟩]]

/-- A cardinal direction (`spatial.Direction`). -/
inductive Direction where
  | topDown
  | leftToRight
  | bottomUp
  | rightToLeft
deriving DecidableEq, Repr

/-- The `AreArranged` predicate's parameters. -/
structure AreArranged where
  direction : Direction
  taper : ℚ
  minDistance : ℚ
  maxDistance : Option ℚ
deriving DecidableEq

/-- Scoring of interval precedence (`AreArranged._score_interval_precedence`):
the leading edge of `i2` must not come before the trailing edge of `i1` plus
the minimum distance, nor (when a maximum distance is set) after it plus the
maximum distance; the worse violation is put through the taper. -/
def AreArranged.scoreIntervalPrecedence (P : AreArranged) (i1 i2 : Interval)
    (document : Document) : ℚ :=
  let minI2a := i1.b + lengthInNativeUnits P.minDistance document
  let leftSideError := max 0 (minI2a - i2.a)
  let rightSideError :=
    match P.maxDistance with
    | some maxDistance => max 0 (i2.a - (i1.b + lengthInNativeUnits maxDistance document))
    | none => (0 : ℚ)
  taperError (max leftSideError rightSideError) 0 (lengthInNativeUnits P.taper document)

/-- The ordered pair of axis intervals `i1, i2` selected by the direction
dispatch in `AreArranged.score`. -/
def AreArranged.intervalsFor (direction : Direction) (B1 B2 : BBox) : Interval × Interval :=
  match direction with
  | .leftToRight => (B1.ix, B2.ix)
  | .rightToLeft => (B2.ix, B1.ix)
  | .topDown => (B1.iy, B2.iy)
  | .bottomUp => (B2.iy, B1.iy)

/-- The score of `AreArranged` on two entities. -/
def AreArranged.score (P : AreArranged) (E1 E2 : SEntity) (doc : Document) : ℚ :=
  let i := AreArranged.intervalsFor P.direction E1.bbox E2.bbox
  P.scoreIntervalPrecedence i.1 i.2 doc

/-- A positive taper score bounds the raw error by `tolerance + taper`. -/
theorem taperError_pos_le (rawError tolerance taper : ℚ) (htaper : 0 ≤ taper)
    (h : 0 < taperError rawError tolerance taper) :
    rawError ≤ tolerance + taper := by
  unfold taperError at h
  set error := max 0 (rawError - tolerance) with herr
  by_cases h0 : error = 0
  · have : rawError - tolerance ≤ 0 := by
      by_contra hc
      push_neg at hc
      have : error = rawError - tolerance := by
        rw [herr]; exact max_eq_right hc.le
      rw [this] at h0; linarith
    linarith
  · simp only [h0, if_false] at h
    by_cases ht0 : taper = 0
    · simp [ht0] at h
    · simp only [ht0, if_false] at h
      have htpos : 0 < taper := lt_of_le_of_ne htaper (Ne.symm ht0)
      have hne : min 1 (error / taper) ≠ 1 := by
        intro hmin
        rw [hmin] at h
        simp at h
      have hlt : error / taper < 1 := by
        rcases lt_or_ge (error / taper) 1 with hlt | hge
        · exact hlt
        · exact absurd (min_eq_left hge) hne
      have : error < taper := by
        have := (div_lt_one htpos).mp hlt
        exact this
      have : rawError - tolerance ≤ error := by
        rw [herr]; exact le_max_right _ _
      linarith

/-- Intersection of two boxes succeeds exactly when both axis intersections
are nonempty. -/
theorem bboxIntersectionPair_isSome (b1 b2 : BBox)
    (hx : max b1.ix.a b2.ix.a ≤ min b1.ix.b b2.ix.b)
    (hy : max b1.iy.a b2.iy.a ≤ min b1.iy.b b2.iy.b) :
    (BBox.intersectionList [b1, b2]).isSome = true := by
  simp [BBox.intersectionList, Interval.intersectionCore, Interval.build, hx, hy]

/-- An interval within distance `radius` of the anchor `r1` meets the band
`[r1 - radius, r1 + radius]`. -/
theorem max_le_min_of_anchor (r1 r2 a2 b2 radius : ℚ)
    (ha : a2 ≤ r2) (hb : r2 ≤ b2) (habs : |r1 - r2| ≤ radius) :
    max (r1 - radius) a2 ≤ min (r1 + radius) b2 := by
  have h := abs_le.mp habs
  apply max_le
  · apply le_min <;> linarith [h.1, h.2]
  · apply le_min <;> linarith [h.1, h.2]

/-- An interval contained in the document's extent meets the document's
extent. -/
theorem max_le_min_of_containment (da db a2 b2 : ℚ)
    (h1 : da ≤ a2) (h2 : a2 ≤ b2) (h3 : b2 ≤ db) :
    max da a2 ≤ min db b2 := by
  apply max_le
  · apply le_min <;> linarith
  · apply le_min <;> linarith

/-- Evaluation of `AreAligned.phi` reduces to the two band-intersection
tests. -/
theorem areAligned_phi_eval (P : AreAligned) (doc : Document) (env : Field → BBox)
    (F1 F2 : Field) :
    (P.phi F1 F2).eval doc env =
      ((BBox.intersectionList [(P.band ⟨doc, env F1⟩).bbox, env F2]).isSome &&
       (BBox.intersectionList [(P.band ⟨doc, env F2⟩).bbox, env F1]).isSome) := by
  simp [AreAligned.phi, Formula.eval, DocRegionTerm.region, DocRegion.intersectionList,
    collectSome, Option.isSome_map]

/-- C3: predicate weakening for `AreAligned`. For entities drawn from the
document (their boxes inside the document's box), whenever the score of
`AreAligned` on the pair is strictly positive, the weakening formula `phi`
evaluates to true under the assignment sending each field to its entity's
bounding box: each box meets the band of total width
`2 * (tolerance + taper)` (in median-line-height units) centred on the other
box's anchor line. -/
theorem C3_areAligned_weakening (P : AreAligned) (doc : Document) (E1 E2 : SEntity)
    (F1 F2 : Field) (env : Field → BBox)
    (htol : 0 ≤ P.tolerance) (htaper : 0 ≤ P.taper) (hmlh : 0 ≤ doc.medianLineHeight)
    (h1 : doc.bbox.containsBBox E1.bbox = true) (h2 : doc.bbox.containsBBox E2.bbox = true)
    (hF1 : env F1 = E1.bbox) (hF2 : env F2 = E2.bbox)
    (hscore : 0 < P.score E1 E2 doc) :
    (P.phi F1 F2).eval doc env = true := by
  simp only [BBox.containsBBox, Interval.containsInterval, Bool.and_eq_true,
    decide_eq_true_eq] at h1 h2
  obtain ⟨⟨hx1a, hx1ab, hx1b⟩, hy1a, hy1ab, hy1b⟩ := h1
  obtain ⟨⟨hx2a, hx2ab, hx2b⟩, hy2a, hy2ab, hy2b⟩ := h2
  rw [areAligned_phi_eval, hF1, hF2, Bool.and_eq_true]
  have hpn : 0 ≤ lengthInNativeUnits P.taper doc := by
    unfold lengthInNativeUnits
    exact mul_nonneg htaper hmlh
  have hradius : ∀ x : ℚ, x ≤ lengthInNativeUnits P.tolerance doc + lengthInNativeUnits P.taper doc →
      x ≤ lengthInNativeUnits (P.tolerance + P.taper) doc := by
    intro x hx
    unfold lengthInNativeUnits at hx ⊢
    linarith [add_mul P.tolerance P.taper doc.medianLineHeight]
  have habs2 : ∀ r1 r2 radius : ℚ, |r1 - r2| ≤ radius → |r2 - r1| ≤ radius := by
    intro r1 r2 radius h
    rw [abs_sub_comm] at h
    exact h
  cases hanch : P.anchors
  case leftSides =>
    simp only [AreAligned.score, AreAligned.anchorPair, hanch] at hscore
    have habs := hradius _ (taperError_pos_le _ _ _ hpn hscore)
    simp only [AreAligned.band, hanch]
    refine ⟨bboxIntersectionPair_isSome _ _ ?_ ?_, bboxIntersectionPair_isSome _ _ ?_ ?_⟩
    · exact max_le_min_of_anchor _ _ _ _ _ (by linarith) (by linarith) habs
    · exact max_le_min_of_containment _ _ _ _ (by linarith) (by linarith) (by linarith)
    · exact max_le_min_of_anchor _ _ _ _ _ (by linarith) (by linarith) (habs2 _ _ _ habs)
    · exact max_le_min_of_containment _ _ _ _ (by linarith) (by linarith) (by linarith)
  case rightSides =>
    simp only [AreAligned.score, AreAligned.anchorPair, hanch] at hscore
    have habs := hradius _ (taperError_pos_le _ _ _ hpn hscore)
    simp only [AreAligned.band, hanch]
    refine ⟨bboxIntersectionPair_isSome _ _ ?_ ?_, bboxIntersectionPair_isSome _ _ ?_ ?_⟩
    · exact max_le_min_of_anchor _ _ _ _ _ (by linarith) (by linarith) habs
    · exact max_le_min_of_containment _ _ _ _ (by linarith) (by linarith) (by linarith)
    · exact max_le_min_of_anchor _ _ _ _ _ (by linarith) (by linarith) (habs2 _ _ _ habs)
    · exact max_le_min_of_containment _ _ _ _ (by linarith) (by linarith) (by linarith)
  case verticalMidlines =>
    simp only [AreAligned.score, AreAligned.anchorPair, hanch] at hscore
    have habs := hradius _ (taperError_pos_le _ _ _ hpn hscore)
    simp only [AreAligned.band, hanch]
    refine ⟨bboxIntersectionPair_isSome _ _ ?_ ?_, bboxIntersectionPair_isSome _ _ ?_ ?_⟩
    · exact max_le_min_of_anchor _ _ _ _ _ (by simp only [Interval.center]; linarith)
        (by simp only [Interval.center]; linarith) habs
    · exact max_le_min_of_containment _ _ _ _ (by linarith) (by linarith) (by linarith)
    · exact max_le_min_of_anchor _ _ _ _ _ (by simp only [Interval.center]; linarith)
        (by simp only [Interval.center]; linarith) (habs2 _ _ _ habs)
    · exact max_le_min_of_containment _ _ _ _ (by linarith) (by linarith) (by linarith)
  case tops =>
    simp only [AreAligned.score, AreAligned.anchorPair, hanch] at hscore
    have habs := hradius _ (taperError_pos_le _ _ _ hpn hscore)
    simp only [AreAligned.band, hanch]
    refine ⟨bboxIntersectionPair_isSome _ _ ?_ ?_, bboxIntersectionPair_isSome _ _ ?_ ?_⟩
    · exact max_le_min_of_containment _ _ _ _ (by linarith) (by linarith) (by linarith)
    · exact max_le_min_of_anchor _ _ _ _ _ (by linarith) (by linarith) habs
    · exact max_le_min_of_containment _ _ _ _ (by linarith) (by linarith) (by linarith)
    · exact max_le_min_of_anchor _ _ _ _ _ (by linarith) (by linarith) (habs2 _ _ _ habs)
  case bottoms =>
    simp only [AreAligned.score, AreAligned.anchorPair, hanch] at hscore
    have habs := hradius _ (taperError_pos_le _ _ _ hpn hscore)
    simp only [AreAligned.band, hanch]
    refine ⟨bboxIntersectionPair_isSome _ _ ?_ ?_, bboxIntersectionPair_isSome _ _ ?_ ?_⟩
    · exact max_le_min_of_containment _ _ _ _ (by linarith) (by linarith) (by linarith)
    · exact max_le_min_of_anchor _ _ _ _ _ (by linarith) (by linarith) habs
    · exact max_le_min_of_containment _ _ _ _ (by linarith) (by linarith) (by linarith)
    · exact max_le_min_of_anchor _ _ _ _ _ (by linarith) (by linarith) (habs2 _ _ _ habs)
  case horizontalMidlines =>
    simp only [AreAligned.score, AreAligned.anchorPair, hanch] at hscore
    have habs := hradius _ (taperError_pos_le _ _ _ hpn hscore)
    simp only [AreAligned.band, hanch]
    refine ⟨bboxIntersectionPair_isSome _ _ ?_ ?_, bboxIntersectionPair_isSome _ _ ?_ ?_⟩
    · exact max_le_min_of_containment _ _ _ _ (by linarith) (by linarith) (by linarith)
    · exact max_le_min_of_anchor _ _ _ _ _ (by simp only [Interval.center]; linarith)
        (by simp only [Interval.center]; linarith) habs
    · exact max_le_min_of_containment _ _ _ _ (by linarith) (by linarith) (by linarith)
    · exact max_le_min_of_anchor _ _ _ _ _ (by simp only [Interval.center]; linarith)
        (by simp only [Interval.center]; linarith) (habs2 _ _ _ habs)

/-- Witness for the C3 theorem: two perfectly left-aligned unit boxes inside
a small document score 1 under `AreAligned`, and `phi` evaluates true. -/
theorem C3_witness :
    (AreAligned.phi ⟨.leftSides, 1, 1⟩ "f" "g").eval ⟨⟨⟨0, 10⟩, ⟨0, 10⟩⟩, 1⟩
      (fun F => if F = "f" then ⟨⟨0, 1⟩, ⟨0, 1⟩⟩ else ⟨⟨0, 1⟩, ⟨2, 3⟩⟩) = true := by
  exact C3_areAligned_weakening ⟨.leftSides, 1, 1⟩
    ⟨⟨⟨0, 10⟩, ⟨0, 10⟩⟩, 1⟩
    ⟨⟨⟨0, 1⟩, ⟨0, 1⟩⟩⟩ ⟨⟨⟨0, 1⟩, ⟨2, 3⟩⟩⟩
    "f" "g"
    (fun F => if F = "f" then ⟨⟨0, 1⟩, ⟨0, 1⟩⟩ else ⟨⟨0, 1⟩, ⟨2, 3⟩⟩)
    (by norm_num) (by norm_num) (by norm_num)
    (by simp only [BBox.containsBBox, Interval.containsInterval, Bool.and_eq_true,
          decide_eq_true_eq]
        norm_num)
    (by simp only [BBox.containsBBox, Interval.containsInterval, Bool.and_eq_true,
          decide_eq_true_eq]
        norm_num)
    (by simp) (by simp)
    (by norm_num [AreAligned.score, AreAligned.anchorPair, taperError, lengthInNativeUnits])

/-- Closed form of `AreArranged._score_interval_precedence` when no maximum
distance is set and the native taper is positive: writing `g` for the
shortfall of the gap below the native minimum distance, the score is
`1 - g / taper` clamped to `[0, 1]`. -/
theorem AreArranged.scoreIntervalPrecedence_closed (P : AreArranged) (i1 i2 : Interval)
    (doc : Document) (hmax : P.maxDistance = none)
    (htp : 0 < lengthInNativeUnits P.taper doc) :
    P.scoreIntervalPrecedence i1 i2 doc =
      min 1 (max 0 (1 - (i1.b + lengthInNativeUnits P.minDistance doc - i2.a) /
        lengthInNativeUnits P.taper doc)) := by
  simp only [AreArranged.scoreIntervalPrecedence, taperError, hmax]
  set tpn := lengthInNativeUnits P.taper doc with htpn
  set g := i1.b + lengthInNativeUnits P.minDistance doc - i2.a with hgdef
  have hE1 : max (max 0 g) 0 = max 0 g := max_eq_left (le_max_left 0 g)
  have hE2 : max 0 (max 0 g - 0) = max 0 g := by
    rw [sub_zero]
    exact max_eq_right (le_max_left 0 g)
  rw [hE1, hE2]
  rcases le_or_lt g 0 with hg | hg
  · rw [max_eq_left hg]
    have hdiv : g / tpn ≤ 0 := div_nonpos_of_nonpos_of_nonneg hg htp.le
    rw [if_pos rfl, max_eq_right (by linarith), min_eq_left (by linarith)]
  · rw [max_eq_right hg.le]
    rw [if_neg (by linarith), if_neg (by linarith)]
    rcases le_or_lt tpn g with hgt | hgt
    · have hdiv : 1 ≤ g / tpn := (one_le_div htp).mpr hgt
      rw [min_eq_left hdiv]
      rw [max_eq_left (by linarith), min_eq_right (by linarith)]
      simp
    · have hdiv1 : g / tpn < 1 := (div_lt_one htp).mpr hgt
      have hdiv0 : 0 < g / tpn := div_pos hg htp
      rw [min_eq_right hdiv1.le]
      rw [abs_of_nonneg (by linarith), max_eq_right (by linarith),
        min_eq_right (by linarith)]

/-- C6 amended: for `AreArranged` with no maximum distance and a strictly
positive native taper (`taper * median_line_height > 0`), writing `d` for
the signed gap from the trailing edge of the first interval to the leading
edge of the second along the arrangement axis: the score is 1 when `d`
equals the native minimum distance, 0 when `d` equals the native minimum
distance minus the native taper, and linear in `d` between those points. -/
theorem C6_amended_areArranged_taper_profile (P : AreArranged) (doc : Document)
    (E1 E2 : SEntity) (hmax : P.maxDistance = none)
    (htp : 0 < lengthInNativeUnits P.taper doc) :
    ((AreArranged.intervalsFor P.direction E1.bbox E2.bbox).2.a -
        (AreArranged.intervalsFor P.direction E1.bbox E2.bbox).1.b =
        lengthInNativeUnits P.minDistance doc →
      P.score E1 E2 doc = 1) ∧
    ((AreArranged.intervalsFor P.direction E1.bbox E2.bbox).2.a -
        (AreArranged.intervalsFor P.direction E1.bbox E2.bbox).1.b =
        lengthInNativeUnits P.minDistance doc - lengthInNativeUnits P.taper doc →
      P.score E1 E2 doc = 0) ∧
    (∀ hd1 : lengthInNativeUnits P.minDistance doc - lengthInNativeUnits P.taper doc ≤
        (AreArranged.intervalsFor P.direction E1.bbox E2.bbox).2.a -
        (AreArranged.intervalsFor P.direction E1.bbox E2.bbox).1.b,
      (AreArranged.intervalsFor P.direction E1.bbox E2.bbox).2.a -
        (AreArranged.intervalsFor P.direction E1.bbox E2.bbox).1.b ≤
        lengthInNativeUnits P.minDistance doc →
      P.score E1 E2 doc =
        1 - (lengthInNativeUnits P.minDistance doc -
          ((AreArranged.intervalsFor P.direction E1.bbox E2.bbox).2.a -
           (AreArranged.intervalsFor P.direction E1.bbox E2.bbox).1.b)) /
          lengthInNativeUnits P.taper doc) := by
  set i1 := (AreArranged.intervalsFor P.direction E1.bbox E2.bbox).1 with hi1
  set i2 := (AreArranged.intervalsFor P.direction E1.bbox E2.bbox).2 with hi2
  set mdn := lengthInNativeUnits P.minDistance doc with hmdn
  set tpn := lengthInNativeUnits P.taper doc with htpn
  have hsc : P.score E1 E2 doc = min 1 (max 0 (1 - (i1.b + mdn - i2.a) / tpn)) := by
    simp only [AreArranged.score]
    rw [← hi1, ← hi2]
    exact P.scoreIntervalPrecedence_closed i1 i2 doc hmax htp
  refine ⟨?_, ?_, ?_⟩
  · intro hd
    have hg : i1.b + mdn - i2.a = 0 := by linarith
    rw [hsc, hg]
    norm_num
  · intro hd
    have hg : i1.b + mdn - i2.a = tpn := by linarith
    rw [hsc, hg, div_self (ne_of_gt htp)]
    norm_num
  · intro hd1 hd2
    have hg0 : 0 ≤ i1.b + mdn - i2.a := by linarith
    have hgt : i1.b + mdn - i2.a ≤ tpn := by linarith
    have hdiv1 : (i1.b + mdn - i2.a) / tpn ≤ 1 := (div_le_one htp).mpr hgt
    have hdiv0 : 0 ≤ (i1.b + mdn - i2.a) / tpn := div_nonneg hg0 htp.le
    rw [hsc, max_eq_right (by linarith), min_eq_right (by linarith)]
    congr 1
    congr 1
    ring

/-- Witness for the amended C6 theorem: `left_to_right` with taper 1,
minimum distance 2 on unit-height-line document; at gap exactly 2 the score
is 1, at gap 1 the score is 0, and at gap 3/2 the score is 1/2. -/
theorem C6_amended_witness :
    AreArranged.score ⟨.leftToRight, 1, 2, none⟩ ⟨⟨⟨0, 1⟩, ⟨0, 1⟩⟩⟩ ⟨⟨⟨3, 4⟩, ⟨0, 1⟩⟩⟩
      ⟨⟨⟨0, 10⟩, ⟨0, 10⟩⟩, 1⟩ = 1 := by
  have h := (C6_amended_areArranged_taper_profile ⟨.leftToRight, 1, 2, none⟩
    ⟨⟨⟨0, 10⟩, ⟨0, 10⟩⟩, 1⟩ ⟨⟨⟨0, 1⟩, ⟨0, 1⟩⟩⟩ ⟨⟨⟨3, 4⟩, ⟨0, 1⟩⟩⟩ rfl
    (by norm_num [lengthInNativeUnits])).1
  exact h (by norm_num [AreArranged.intervalsFor, lengthInNativeUnits])

/-- C6 counterexample: `AreArranged` permits `taper = 0`; then at a gap of
exactly `min_distance - taper = min_distance` the score is 1, not 0 as the
claim requires. The entities are unit boxes touching exactly at `x = 1` with
`min_distance = 0`, `taper = 0`, median line height 1. -/
theorem C6_counterexample_taper_zero :
    ((AreArranged.intervalsFor Direction.leftToRight
        (⟨⟨0, 1⟩, ⟨0, 1⟩⟩ : BBox) (⟨⟨1, 2⟩, ⟨0, 1⟩⟩ : BBox)).2.a -
      (AreArranged.intervalsFor Direction.leftToRight
        (⟨⟨0, 1⟩, ⟨0, 1⟩⟩ : BBox) (⟨⟨1, 2⟩, ⟨0, 1⟩⟩ : BBox)).1.b =
      lengthInNativeUnits (0 : ℚ) ⟨⟨⟨0, 10⟩, ⟨0, 10⟩⟩, 1⟩ -
        lengthInNativeUnits (0 : ℚ) ⟨⟨⟨0, 10⟩, ⟨0, 10⟩⟩, 1⟩) ∧
    AreArranged.score ⟨.leftToRight, 0, 0, none⟩ ⟨⟨⟨0, 1⟩, ⟨0, 1⟩⟩⟩ ⟨⟨⟨1, 2⟩, ⟨0, 1⟩⟩⟩
      ⟨⟨⟨0, 10⟩, ⟨0, 10⟩⟩, 1⟩ = 1 ∧
    AreArranged.score ⟨.leftToRight, 0, 0, none⟩ ⟨⟨⟨0, 1⟩, ⟨0, 1⟩⟩⟩ ⟨⟨⟨1, 2⟩, ⟨0, 1⟩⟩⟩
      ⟨⟨⟨0, 10⟩, ⟨0, 10⟩⟩, 1⟩ ≠ 0 := by
  refine ⟨by norm_num [AreArranged.intervalsFor, lengthInNativeUnits], ?_, ?_⟩ <;>
    norm_num [AreArranged.score, AreArranged.intervalsFor,
      AreArranged.scoreIntervalPrecedence, taperError, lengthInNativeUnits]

/-! ## Extractions (extraction.py) -/

/-- A `(field, entity)` pair (`extraction.ExtractionPoint`). The entity type
is a parameter; entities only matter to the scoring machinery through the
score functions of bound predicates. -/
structure ExtractionPoint (E : Type) where
  field : Field
  entity : E
deriving DecidableEq

/-- An assignment from fields to entities (`extraction.Extraction`). -/
structure Extraction (E : Type) where
  assignments : List (ExtractionPoint E)
deriving DecidableEq

/-- The fields for which the extraction has assignments. -/
def Extraction.fields {E : Type} (X : Extraction E) : List Field :=
  X.assignments.map ExtractionPoint.field

/-- Emptiness test. -/
def Extraction.isEmptyE {E : Type} (X : Extraction E) : Bool :=
  X.assignments.isEmpty

/-- The entity assigned to a field, when present. -/
def Extraction.lookup? {E : Type} (X : Extraction E) (F : Field) : Option E :=
  (X.assignments.find? (fun p => p.field = F)).map ExtractionPoint.entity

/-- Merge of several extractions (`Extraction.merge`): raises
`OverlappingFieldsError` when two inputs share a field, concatenates the
assignments otherwise. -/
def Extraction.mergeE {E : Type} [DecidableEq E] (extractions : List (Extraction E)) :
    Except String (Extraction E) :=
  if ((extractions.map Extraction.fields).flatten).Nodup then
    .ok ⟨(extractions.map Extraction.assignments).flatten⟩
  else
    .error "OverlappingFieldsError: cannot merge extractions"

/-! ## Rules (rule.py) -/

/-- The score part of `rule.AtomScore` / `rule.ConnectiveScore`. The nested
per-child score dictionary of connective scores plays no role in any claim
and is omitted. -/
structure RuleScore where
  score : ℚ
deriving DecidableEq

/-- A rule (`rule.Atom` / `rule.Conjunction` / `rule.Disjunction`), bound to
a document: an atom carries its field tuple and its bound predicate score
function. -/
inductive Rule (E : Type) where
  | atom (fields : List Field) (predScore : List E → ℚ) (uuid : String)
  | conjRule (rules : List (Rule E)) (uuid : String)
  | disjRule (rules : List (Rule E)) (uuid : String)

/-- The uuid of a rule. -/
def Rule.uuid {E : Type} : Rule E → String
  | .atom _ _ u => u
  | .conjRule _ u => u
  | .disjRule _ u => u

/-- The fields of a rule: an atom's field tuple; for a connective, the union
(without duplicates, as a frozenset) of its children's fields. -/
def Rule.fieldsOf {E : Type} : Rule E → List Field
  | .atom fields _ _ => fields
  | .conjRule rules _ => ((rules.attach.map (fun r => Rule.fieldsOf r.1)).flatten).dedup
  | .disjRule rules _ => ((rules.attach.map (fun r => Rule.fieldsOf r.1)).flatten).dedup
decreasing_by
  all_goals
    simp only [Rule.conjRule.sizeOf_spec, Rule.disjRule.sizeOf_spec]
    have := List.sizeOf_lt_of_mem r.2
    omega

/-- The recursive atom set of a rule (`rule.get_atoms`). -/
def Rule.getAtoms {E : Type} : Rule E → List (Rule E)
  | .atom fields predScore u => [.atom fields predScore u]
  | .conjRule rules _ => (rules.attach.map (fun r => Rule.getAtoms r.1)).flatten
  | .disjRule rules _ => (rules.attach.map (fun r => Rule.getAtoms r.1)).flatten
decreasing_by
  all_goals
    simp only [Rule.conjRule.sizeOf_spec, Rule.disjRule.sizeOf_spec]
    have := List.sizeOf_lt_of_mem r.2
    omega

/-- Whether a rule can be checked on an extraction
(`rule.rule_is_decidable`): all its fields are assigned. -/
def ruleIsDecidable {E : Type} (rule : Rule E) (X : Extraction E) : Bool :=
  rule.fieldsOf.all (fun F => F ∈ X.fields)

/-- The rule score of an extraction (`Atom.rule_score` and
`Connective.rule_score`): an atom with any unassigned field scores 1,
otherwise its predicate scores the assigned entities; a conjunction scores
the product and a disjunction the maximum of its children. (The maximum of
an empty disjunction, on which the source raises, is modelled as 0.) -/
def Rule.ruleScoreOf {E : Type} (X : Extraction E) : Rule E → RuleScore
  | .atom fields predScore _ =>
    if fields.all (fun F => F ∈ X.fields) then
      ⟨predScore (fields.filterMap X.lookup?)⟩
    else ⟨1⟩
  | .conjRule rules _ =>
    ⟨(rules.attach.map (fun r => (Rule.ruleScoreOf X r.1).score)).prod⟩
  | .disjRule rules _ =>
    ⟨(rules.attach.map (fun r => (Rule.ruleScoreOf X r.1).score)).foldl max 0⟩
decreasing_by
  all_goals
    simp only [Rule.conjRule.sizeOf_spec, Rule.disjRule.sizeOf_spec]
    have := List.sizeOf_lt_of_mem r.2
    omega

/-! ## Scoring (scoring.py) -/

/-- A scored extraction (`scoring.ScoredExtraction`): an extraction plus its
score, per-field scores, per-rule scores (keyed by rule uuid) and mass. -/
structure ScoredExtraction (E : Type) where
  extraction : Extraction E
  score : ℚ
  fieldScores : List (Field × ℚ)
  ruleScores : List (String × RuleScore)
  mass : ℚ
deriving DecidableEq

/-- Python dictionary lookup on an association list. -/
def dictGet? {K V : Type} [DecidableEq K] (d : List (K × V)) (k : K) : Option V :=
  (d.find? (fun p => p.1 = k)).map Prod.snd

/-- Python `{**a, **b}`: keys of `a` in order with `b`'s value where both
have the key, then the keys only `b` has, in order. -/
def dictMerge {K V : Type} [DecidableEq K] (a b : List (K × V)) : List (K × V) :=
  a.map (fun p =>
    match b.find? (fun q => q.1 = p.1) with
    | some q => (p.1, q.2)
    | none => p) ++
  b.filter (fun q => !(a.any (fun p => p.1 = q.1)))

/-- Python `d[k] = v` on an association list. -/
def dictSet {K V : Type} [DecidableEq K] (d : List (K × V)) (k : K) (v : V) : List (K × V) :=
  if d.any (fun p => p.1 = k) then
    d.map (fun p => if p.1 = k then (k, v) else p)
  else d ++ [(k, v)]

/-- Python `d[k] *= s` on a rational-valued association list. -/
def dictMulAt {K : Type} [DecidableEq K] (d : List (K × ℚ)) (k : K) (s : ℚ) : List (K × ℚ) :=
  d.map (fun p => if p.1 = k then (p.1, p.2 * s) else p)

/-- The extraction score (`scoring.extraction_score`): the sum of the field
scores divided by the mass. -/
def extractionScore (fieldScores : List (Field × ℚ)) (mass : ℚ) : ℚ :=
  ((fieldScores.map Prod.snd).sum) / mass

/-- Cached rule scoring (`scoring.get_rule_score`). -/
def getRuleScore {E : Type} (rule : Rule E) (X : Extraction E)
    (scoreCache : List (String × RuleScore)) : RuleScore :=
  match dictGet? scoreCache rule.uuid with
  | some s => s
  | none => rule.ruleScoreOf X

/-- Upper bound of a rule score given cached sub-scores
(`scoring.upper_bound`). The disjunction case is the plain maximum of the
children's bounds — the source's `or (1.0,)` is dead code because a
generator object is always truthy — so it can be 0. (On an empty
disjunction the source's `max` raises `ValueError`; that case is modelled
as 1, the value the dead `or (1.0,)` was meant to supply.) -/
def upperBound {E : Type} (X : Extraction E) (scoreCache : List (String × RuleScore)) :
    Rule E → ℚ
  | r@(.atom _ _ _) =>
    match dictGet? scoreCache r.uuid with
    | some s => s.score
    | none =>
      if ruleIsDecidable r X then (r.ruleScoreOf X).score else 1
  | r@(.disjRule rules _) =>
    match dictGet? scoreCache r.uuid with
    | some s => s.score
    | none =>
      match rules.attach.map (fun sub => upperBound X scoreCache sub.1) with
      | [] => 1
      | b :: bs => bs.foldl max b
  | r@(.conjRule rules _) =>
    match dictGet? scoreCache r.uuid with
    | some s => s.score
    | none => (rules.attach.map (fun sub => upperBound X scoreCache sub.1)).prod
decreasing_by
  all_goals
    simp only [Rule.conjRule.sizeOf_spec, Rule.disjRule.sizeOf_spec]
    have := List.sizeOf_lt_of_mem sub.2
    omega

/-- The merge of scored extractions under extra rules (`scoring.merge`):
merge the extractions (raising on overlapping fields), union the score
dictionaries, score the decidable atoms and rules, fold the decidable rule
scores into the field scores, zero the fields of non-decidable rules whose
upper bound is 0, and rescore by `extraction_score` at the given mass. -/
def mergeScored {E : Type} [DecidableEq E] (scoredExtractions : List (ScoredExtraction E))
    (rules : List (Rule E)) (fields : List Field) (mass : ℚ) :
    Except String (ScoredExtraction E) :=
  match Extraction.mergeE (scoredExtractions.map ScoredExtraction.extraction) with
  | .error e => .error e
  | .ok extraction =>
    let ruleScores0 := scoredExtractions.foldl (fun acc se => dictMerge acc se.ruleScores) []
    let fieldScores0 := scoredExtractions.foldl (fun acc se => dictMerge acc se.fieldScores) []
    let allAtoms := (rules.map Rule.getAtoms).flatten
    let atomScores := (allAtoms.filter (fun A => ruleIsDecidable A extraction)).map
      (fun A => (A.uuid, getRuleScore A extraction ruleScores0))
    let ruleScores1 := dictMerge ruleScores0 atomScores
    let decidableRules := rules.filter (fun R => ruleIsDecidable R extraction)
    let nonDecidableRules := rules.filter (fun R => !(ruleIsDecidable R extraction))
    let decidableRulesScores := decidableRules.map
      (fun R => (R, getRuleScore R extraction ruleScores1))
    let earlyExits := nonDecidableRules.filter
      (fun R => upperBound extraction ruleScores1 R = 0)
    let applied := decidableRulesScores.foldl
      (fun (acc : List (Field × ℚ) × List (String × RuleScore)) rs =>
        (rs.1.fieldsOf.filter (fun F => F ∈ extraction.fields)).foldl
          (fun acc2 F => (dictMulAt acc2.1 F rs.2.score, dictSet acc2.2 rs.1.uuid rs.2)) acc)
      (fieldScores0, ruleScores1)
    let finalFieldScores := earlyExits.foldl
      (fun fs R =>
        (R.fieldsOf.filter (fun F => F ∈ extraction.fields)).foldl
          (fun fs2 F => dictSet fs2 F 0) fs)
      applied.1
    .ok ⟨extraction, extractionScore finalFieldScores mass, finalFieldScores, applied.2, mass⟩

/-- A default-scored extraction (`ScoredExtraction.build`): all fields score
their base score (default 1); the score is 1, or 0 for the empty
extraction. -/
def ScoredExtraction.build {E : Type} [DecidableEq E] (extraction : Extraction E)
    (mass : ℚ) (baseFieldScores : List (Field × ℚ)) : ScoredExtraction E :=
  { extraction := extraction
    score := if extraction.assignments.length = 0 then 0 else 1
    fieldScores := extraction.fields.map (fun F => (F, (dictGet? baseFieldScores F).getD 1))
    ruleScores := []
    mass := mass }

/-- The scored extraction built for one leaf candidate
(`LeafNode.bound_to.scored_extraction` in tree.py): one assignment (or none,
for the unfilled candidate), one field score, mass 1, and score
`extraction_score(field_scores, 1)`. -/
def leafScoredExtraction {E : Type} (field : Field) (assignment : Option E)
    (fieldScore : ℚ) (ruleScores : List (String × RuleScore)) : ScoredExtraction E :=
  { extraction :=
      match assignment with
      | some e => ⟨[⟨field, e⟩]⟩
      | none => ⟨[]⟩
    score := extractionScore [(field, fieldScore)] 1
    fieldScores := [(field, fieldScore)]
    ruleScores := ruleScores
    mass := 1 }

/-- The public (non-underscore-prefixed) fields among a node's fields, as in
`BoundPatternNode.__init__`. -/
def publicFields (fields : List Field) : List Field :=
  fields.filter (fun F =>
    decide (F.length > 0) &&
    match F.data with
    | [] => false
    | c :: _ => decide (c ≠ '_'))

/-- The public restriction of a scored extraction
(`BoundPatternNode.public_extraction`): assignments and field scores are
filtered to the legal (public) fields; the score, rule scores and mass are
kept unchanged. -/
def publicExtraction {E : Type} (legalFields : List Field) (se : ScoredExtraction E) :
    ScoredExtraction E :=
  { se with
    extraction := ⟨se.extraction.assignments.filter (fun A => A.field ∈ legalFields)⟩
    fieldScores := se.fieldScores.filter (fun p => p.1 ∈ legalFields) }

/-- C1 amended: every scored extraction produced by `scoring.merge` (the
yields of combine and pick-best nodes), every leaf candidate extraction
(the yields of leaf nodes, passed through unchanged by merge nodes), and
every default-built extraction satisfies `score = Σ field_scores / mass`
exactly (hence within the 1e-9 tolerance), with the stored mass equal to
the node mass passed in; and the empty default-built extraction has score
0. The invariant does NOT extend to the yields of a `BoundPatternNode`
after private-field filtering; see the counterexample. -/
theorem C1_amended_merge_score_invariant {E : Type} [DecidableEq E]
    (scoredExtractions : List (ScoredExtraction E)) (rules : List (Rule E))
    (fields : List Field) (mass : ℚ) (M : ScoredExtraction E)
    (h : mergeScored scoredExtractions rules fields mass = .ok M) :
    (M.score = extractionScore M.fieldScores M.mass ∧ M.mass = mass) ∧
    (∀ (field : Field) (assignment : Option E) (fieldScore : ℚ) rs,
      (leafScoredExtraction field assignment fieldScore rs).score =
        extractionScore (leafScoredExtraction field assignment fieldScore rs).fieldScores
          (leafScoredExtraction field assignment fieldScore rs).mass) ∧
    (∀ (bfs : List (Field × ℚ)) (m : ℚ),
      (ScoredExtraction.build (⟨[]⟩ : Extraction E) m bfs).score = 0) := by
  refine ⟨?_, fun field assignment fieldScore rs => rfl, fun bfs m => rfl⟩
  unfold mergeScored at h
  cases hm : Extraction.mergeE (scoredExtractions.map ScoredExtraction.extraction) with
  | error e =>
    rw [hm] at h
    exact absurd h (by simp)
  | ok extraction =>
    rw [hm] at h
    simp only [Except.ok.injEq] at h
    subst h
    exact ⟨rfl, rfl⟩

/-- The merged extraction used by the C1 witness: the single leaf candidate
for field `a`, remerged with no rules at mass 1. -/
def c1WitnessM : ScoredExtraction ℕ :=
  ((mergeScored [leafScoredExtraction "a" (some 1) 1 []] ([] : List (Rule ℕ)) ["a"]
    1).toOption).getD (ScoredExtraction.build ⟨[]⟩ 1 [])

/-- Witness for the amended C1 theorem at a concrete merge. -/
theorem C1_amended_witness :
    c1WitnessM.score = extractionScore c1WitnessM.fieldScores c1WitnessM.mass ∧
    c1WitnessM.mass = 1 :=
  (C1_amended_merge_score_invariant [leafScoredExtraction "a" (some 1) 1 []] [] ["a"]
    1 c1WitnessM rfl).1

/-- The pattern-node output used by the C1 counterexample: the combination
of a public leaf `a` and a private leaf `_x` (both with field score 1),
merged at the combine node of mass 2, then restricted to the public fields
by `BoundPatternNode.public_extraction`. -/
def c1CounterM : ScoredExtraction ℕ :=
  publicExtraction (publicFields ["a", "_x"])
    (((mergeScored [leafScoredExtraction "a" (some 1) 1 [],
        leafScoredExtraction "_x" (some 2) 1 []] ([] : List (Rule ℕ)) ["a", "_x"]
      2).toOption).getD (ScoredExtraction.build ⟨[]⟩ 1 []))

/-- C1 counterexample: the extraction yielded by a `BoundPatternNode` keeps
the child's score 1 and mass 2 while dropping the private field `_x` from
the field-score map, so its score differs from `Σ field_scores / mass = 1/2`
by `1/2`, far beyond the 1e-9 tolerance the claim allows. -/
theorem C1_counterexample_pattern_node :
    c1CounterM.score = 1 ∧
    extractionScore c1CounterM.fieldScores c1CounterM.mass = 1 / 2 ∧
    ¬ (|c1CounterM.score - extractionScore c1CounterM.fieldScores c1CounterM.mass| ≤
        1 / 1000000000) := by
  have hsc : c1CounterM.score = extractionScore [("a", (1 : ℚ)), ("_x", (1 : ℚ))] 2 := rfl
  have hfs : c1CounterM.fieldScores = [("a", (1 : ℚ))] := rfl
  have hm : c1CounterM.mass = 2 := rfl
  have h1 : c1CounterM.score = 1 := by
    rw [hsc]
    norm_num [extractionScore]
  have h2 : extractionScore c1CounterM.fieldScores c1CounterM.mass = 1 / 2 := by
    rw [hfs, hm]
    norm_num [extractionScore]
  refine ⟨h1, h2, ?_⟩
  rw [h1, h2]
  rw [show |(1 : ℚ) - 1 / 2| = 1 / 2 by rw [abs_of_nonneg] <;> norm_num]
  norm_num

/-! ## Bound tree masses (bound_tree.py) -/

/-- The shape of a bound tree, carrying exactly the structure that the
`mass` and `legal_fields` properties of the bound node classes read. -/
inductive BoundTree where
  | leaf (field : Field)
  | pattern (child : BoundTree)
  | combine (node1 node2 : BoundTree)
  | pickBest (children : List BoundTree)
  | mergeNode (child : BoundTree)

/-- The legal fields of a bound node: a leaf's single field; the public
fields of the child for a pattern node; the union for combine and pick-best
(sets, so without duplicates); the child's fields for a merge node. -/
def BoundTree.legalFields : BoundTree → List Field
  | .leaf f => [f]
  | .pattern c => publicFields c.legalFields
  | .combine a b => (a.legalFields ++ b.legalFields).dedup
  | .pickBest cs => ((cs.attach.map (fun c => BoundTree.legalFields c.1)).flatten).dedup
  | .mergeNode c => c.legalFields
decreasing_by
  all_goals
    simp only [BoundTree.pickBest.sizeOf_spec, BoundTree.pattern.sizeOf_spec,
      BoundTree.combine.sizeOf_spec, BoundTree.mergeNode.sizeOf_spec]
    first
      | (have hlt := List.sizeOf_lt_of_mem c.2
         omega)
      | omega

/-- The mass of a bound node: 1 for a leaf, the number of public fields for
a pattern node, the sum of the children's masses for a combine node, the
maximum of the children's masses for a pick-best node (on an empty child
list the source raises; the fold's seed 0 is never reached through the
engine), and the child's mass for a merge node. -/
def BoundTree.mass : BoundTree → ℕ
  | .leaf _ => 1
  | .pattern c => (BoundTree.pattern c).legalFields.length
  | .combine a b => a.mass + b.mass
  | .pickBest cs => (cs.attach.map (fun c => BoundTree.mass c.1)).foldl max 0
  | .mergeNode c => c.mass
decreasing_by
  all_goals
    simp only [BoundTree.pickBest.sizeOf_spec, BoundTree.pattern.sizeOf_spec,
      BoundTree.combine.sizeOf_spec, BoundTree.mergeNode.sizeOf_spec]
    first
      | (have hlt := List.sizeOf_lt_of_mem c.2
         omega)
      | omega

/-- The leaf fields beneath a node, with multiplicity. -/
def BoundTree.leafFieldsList : BoundTree → List Field
  | .leaf f => [f]
  | .pattern c => c.leafFieldsList
  | .combine a b => a.leafFieldsList ++ b.leafFieldsList
  | .pickBest cs => (cs.attach.map (fun c => BoundTree.leafFieldsList c.1)).flatten
  | .mergeNode c => c.leafFieldsList
decreasing_by
  all_goals
    simp only [BoundTree.pickBest.sizeOf_spec, BoundTree.pattern.sizeOf_spec,
      BoundTree.combine.sizeOf_spec, BoundTree.mergeNode.sizeOf_spec]
    first
      | (have hlt := List.sizeOf_lt_of_mem c.2
         omega)
      | omega

/-- Whether a tree consists only of combine nodes over leaves. -/
def BoundTree.combineLeafOnly : BoundTree → Bool
  | .leaf _ => true
  | .combine a b => a.combineLeafOnly && b.combineLeafOnly
  | .pattern _ => false
  | .pickBest _ => false
  | .mergeNode _ => false

/-- Every element of a list bounds the max-fold from below. -/
theorem le_foldl_max (l : List ℕ) (a : ℕ) :
    a ≤ l.foldl max a ∧ ∀ x ∈ l, x ≤ l.foldl max a := by
  induction l generalizing a with
  | nil => simp
  | cons y ys ih =>
    refine ⟨le_trans (le_max_left a y) (ih (max a y)).1, ?_⟩
    intro x hx
    rcases List.mem_cons.mp hx with h | h
    · subst h
      exact le_trans (le_max_right a x) (ih (max a x)).1
    · exact (ih (max a y)).2 x h

/-- The max-fold is the seed or an element of the list. -/
theorem foldl_max_mem (l : List ℕ) (a : ℕ) :
    l.foldl max a = a ∨ l.foldl max a ∈ l := by
  induction l generalizing a with
  | nil => simp
  | cons y ys ih =>
    rcases ih (max a y) with h | h
    · rcases max_cases a y with ⟨hm, _⟩ | ⟨hm, _⟩
      · left
        rw [List.foldl_cons, h, hm]
      · right
        rw [List.foldl_cons, h, hm]
        exact List.mem_cons_self y ys
    · right
      rw [List.foldl_cons]
      exact List.mem_cons_of_mem y h

/-- In a tree of combine nodes over leaves, the mass is the number of leaf
fields beneath. -/
theorem combineLeafOnly_mass : ∀ t : BoundTree, t.combineLeafOnly = true →
    t.mass = t.leafFieldsList.length
  | .leaf f, _ => by simp [BoundTree.mass, BoundTree.leafFieldsList]
  | .combine a b, h => by
    simp only [BoundTree.combineLeafOnly, Bool.and_eq_true] at h
    simp only [BoundTree.mass, BoundTree.leafFieldsList, List.length_append,
      combineLeafOnly_mass a h.1, combineLeafOnly_mass b h.2]
  | .pattern c, h => by simp [BoundTree.combineLeafOnly] at h
  | .pickBest cs, h => by simp [BoundTree.combineLeafOnly] at h
  | .mergeNode c, h => by simp [BoundTree.combineLeafOnly] at h

/-- C10: the mass invariants of the bound tree. A leaf has mass 1; a combine
node's mass is the sum of its two children's masses; a nonempty pick-best
node's mass is the maximum of its children's masses; a pattern node's mass
is the number of its public fields; and in a tree of combine nodes over
leaves the mass equals the number of leaf fields beneath, so the extraction
score is the mean per-field score. -/
theorem C10_mass_invariants (f0 : Field) (a0 b0 : BoundTree) (c0 : BoundTree)
    (cs0 : List BoundTree) (t0 : BoundTree) (h0 : t0.combineLeafOnly = true) :
    (BoundTree.leaf f0).mass = 1 ∧
    (BoundTree.combine a0 b0).mass = a0.mass + b0.mass ∧
    ((∀ t ∈ c0 :: cs0, t.mass ≤ (BoundTree.pickBest (c0 :: cs0)).mass) ∧
      (BoundTree.pickBest (c0 :: cs0)).mass ∈ (c0 :: cs0).map BoundTree.mass) ∧
    (∀ c : BoundTree, (BoundTree.pattern c).mass = (publicFields c.legalFields).length) ∧
    t0.mass = t0.leafFieldsList.length := by
  have hmap : ((c0 :: cs0).attach.map (fun c => BoundTree.mass c.1)) =
      (c0 :: cs0).map BoundTree.mass := by
    simp
  have hmass_pick : (BoundTree.pickBest (c0 :: cs0)).mass =
      ((c0 :: cs0).map BoundTree.mass).foldl max 0 := by
    rw [show (BoundTree.pickBest (c0 :: cs0)).mass =
      ((c0 :: cs0).attach.map (fun c => BoundTree.mass c.1)).foldl max 0 by
        simp [BoundTree.mass], hmap]
  refine ⟨by simp [BoundTree.mass], by simp [BoundTree.mass], ⟨?_, ?_⟩,
    fun c => by simp [BoundTree.mass, BoundTree.legalFields], combineLeafOnly_mass t0 h0⟩
  · intro t ht
    rw [hmass_pick]
    exact (le_foldl_max ((c0 :: cs0).map BoundTree.mass) 0).2 t.mass
      (List.mem_map_of_mem BoundTree.mass ht)
  · rw [hmass_pick]
    rcases foldl_max_mem ((c0 :: cs0).map BoundTree.mass) 0 with h | h
    · rw [h]
      have h2 := (le_foldl_max ((c0 :: cs0).map BoundTree.mass) 0).2 c0.mass
        (by simp)
      rw [h] at h2
      have h3 : c0.mass = 0 := Nat.le_zero.mp h2
      exact h3 ▸ List.mem_map_of_mem BoundTree.mass (List.mem_cons_self c0 cs0)
    · exact h

/-- Witness for the C10 theorem at a concrete tree: the combine of two
leaves has mass 2 and two leaf fields beneath it. -/
theorem C10_witness :
    (BoundTree.leaf "x").mass = 1 ∧
    (BoundTree.combine (.leaf "x") (.leaf "y")).mass =
      (BoundTree.leaf "x").mass + (BoundTree.leaf "y").mass ∧
    ((∀ t ∈ [BoundTree.leaf "x"], t.mass ≤ (BoundTree.pickBest [.leaf "x"]).mass) ∧
      (BoundTree.pickBest [.leaf "x"]).mass ∈ [BoundTree.leaf "x"].map BoundTree.mass) ∧
    (∀ c : BoundTree, (BoundTree.pattern c).mass = (publicFields c.legalFields).length) ∧
    (BoundTree.combine (.leaf "x") (.leaf "y")).mass =
      (BoundTree.combine (.leaf "x") (.leaf "y")).leafFieldsList.length :=
  C10_mass_invariants "x" (.leaf "x") (.leaf "y") (.leaf "x") []
    (.combine (.leaf "x") (.leaf "y")) rfl

/-! ## Results (results.py) -/

/-- The best-first comparison of scored extractions
(`ScoredExtraction.__lt__`): smaller means higher score. -/
def scoredLt {E : Type} (a b : ScoredExtraction E) : Bool :=
  decide (b.score < a.score)

/-- Python's stable `sorted` under `ScoredExtraction.__lt__`: a stable sort
placing higher scores first. -/
def sortedBestFirst {E : Type} (l : List (ScoredExtraction E)) : List (ScoredExtraction E) :=
  l.mergeSort (fun a b => decide (b.score ≤ a.score))

/-- The running best extraction maintained by `BoundNode._yielding`: the
cached best is replaced when a new extraction compares strictly better. -/
def foldBest {E : Type} (l : List (ScoredExtraction E)) : Option (ScoredExtraction E) :=
  l.foldl (fun best e =>
    match best with
    | none => some e
    | some b => if scoredLt e b then some e else some b) none

/-- A node of the results tree (`results.ResultsNode`), without the child
list, which plays no role in the claim. -/
structure ResultsNode (E : Type) where
  nodeUuid : String
  top20Extractions : List (ScoredExtraction E)
  topScore : ℚ
  fields : List Field

/-- The results node generated for one bound node
(`results.generate_results.generate_results_tree`): all the returned
extractions, sorted best-first, plus the cached best extraction's score;
absent when the node never yielded (where the source's assertion fires). -/
def generateResultsNode {E : Type} (nodeUuid : String) (fields : List Field)
    (returnedExtractions : List (ScoredExtraction E)) : Option (ResultsNode E) :=
  match foldBest returnedExtractions with
  | none => none
  | some best => some ⟨nodeUuid, sortedBestFirst returnedExtractions, best.score, fields⟩

/-- The best-fold over a nonempty list lands on an element whose score
dominates the seed and every element. -/
theorem foldBest_go {E : Type} (l : List (ScoredExtraction E)) (b0 : ScoredExtraction E) :
    ∃ b, l.foldl (fun best e =>
        match best with
        | none => some e
        | some b => if scoredLt e b then some e else some b) (some b0) = some b ∧
      (b = b0 ∨ b ∈ l) ∧ b0.score ≤ b.score ∧ ∀ x ∈ l, x.score ≤ b.score := by
  induction l generalizing b0 with
  | nil => exact ⟨b0, rfl, Or.inl rfl, le_refl _, by simp⟩
  | cons x xs ih =>
    by_cases hx : scoredLt x b0
    · obtain ⟨b, hb, hmem, hle, hall⟩ := ih x
      have hx' : b0.score < x.score := of_decide_eq_true hx
      refine ⟨b, ?_, ?_, by linarith, ?_⟩
      · simpa [hx] using hb
      · rcases hmem with h | h
        · exact Or.inr (h ▸ List.mem_cons_self x xs)
        · exact Or.inr (List.mem_cons_of_mem x h)
      · intro y hy
        rcases List.mem_cons.mp hy with h | h
        · subst h
          linarith
        · exact hall y h
    · obtain ⟨b, hb, hmem, hle, hall⟩ := ih b0
      have hx' : ¬ b0.score < x.score := by
        intro hc
        exact hx (decide_eq_true hc)
      refine ⟨b, ?_, Or.imp_right (List.mem_cons_of_mem x) hmem, hle, ?_⟩
      · simpa [hx] using hb
      · intro y hy
        rcases List.mem_cons.mp hy with h | h
        · subst h
          push_neg at hx'
          linarith
        · exact hall y h

/-- On a nonempty list the best-fold returns an element maximising the
score. -/
theorem foldBest_spec {E : Type} (l : List (ScoredExtraction E)) (hl : l ≠ []) :
    ∃ b, foldBest l = some b ∧ b ∈ l ∧ ∀ x ∈ l, x.score ≤ b.score := by
  match l with
  | [] => exact absurd rfl hl
  | h :: t =>
    obtain ⟨b, hb, hmem, hle0, hall⟩ := foldBest_go t h
    refine ⟨b, ?_, ?_, ?_⟩
    · simpa [foldBest] using hb
    · rcases hmem with h1 | h1
      · exact h1 ▸ List.mem_cons_self h t
      · exact List.mem_cons_of_mem h h1
    · intro x hx
      rcases List.mem_cons.mp hx with h1 | h1
      · subst h1
        exact hle0
      · exact hall x h1

/-- C5 amended: the `top_20_extractions` of a generated results node are ALL
the extractions the bound node yielded (not capped at 20), sorted
best-first, and the node's `top_score` equals the score of the first entry
of that list. -/
theorem C5_amended_results_node {E : Type} (nodeUuid : String) (fields : List Field)
    (l : List (ScoredExtraction E)) (hl : l ≠ []) :
    ((generateResultsNode nodeUuid fields l).map ResultsNode.top20Extractions =
      some (sortedBestFirst l)) ∧
    (sortedBestFirst l).Perm l ∧
    List.Pairwise (fun a b : ScoredExtraction E => b.score ≤ a.score) (sortedBestFirst l) ∧
    ((generateResultsNode nodeUuid fields l).map ResultsNode.topScore =
      (sortedBestFirst l).head?.map ScoredExtraction.score) := by
  obtain ⟨b, hb, hbmem, hball⟩ := foldBest_spec l hl
  have hperm : (sortedBestFirst l).Perm l := List.mergeSort_perm l _
  have hsorted : List.Pairwise
      (fun a b : ScoredExtraction E => b.score ≤ a.score) (sortedBestFirst l) := by
    have h := @List.sorted_mergeSort _
      (fun a b : ScoredExtraction E => decide (b.score ≤ a.score))
      (fun a b c hab hbc => by
        have h1 := of_decide_eq_true hab
        have h2 := of_decide_eq_true hbc
        exact decide_eq_true (le_trans h2 h1))
      (fun a b => by
        rcases le_total b.score a.score with h | h
        · simp [h]
        · simp [h])
      l
    exact h.imp (fun hab => of_decide_eq_true hab)
  refine ⟨?_, hperm, hsorted, ?_⟩
  · simp [generateResultsNode, hb]
  · match hs : sortedBestFirst l with
    | [] =>
      have h0 : l.Perm [] := by
        rw [← hs]
        exact hperm.symm
      exact absurd h0.eq_nil hl
    | h :: t =>
      have hhead_mem : h ∈ l := hperm.mem_iff.mp (hs ▸ List.mem_cons_self h t)
      have hhb : h.score ≤ b.score := hball h hhead_mem
      have hbh : b.score ≤ h.score := by
        have hbmem' : b ∈ h :: t := hs ▸ hperm.mem_iff.mpr hbmem
        rcases List.mem_cons.mp hbmem' with h1 | h1
        · exact le_of_eq (congrArg ScoredExtraction.score h1)
        · have := hs ▸ hsorted
          exact (List.pairwise_cons.mp this).1 b h1
      simp [generateResultsNode, hb, hs, le_antisymm hbh hhb]

/-- Witness for the amended C5 theorem at a concrete two-element history. -/
theorem C5_amended_witness :
    ((generateResultsNode "u" ["a"]
        [leafScoredExtraction "a" ((some 1 : Option ℕ)) 1 [],
         leafScoredExtraction "a" (some 2) (1 / 2) []]).map ResultsNode.top20Extractions =
      some (sortedBestFirst
        [leafScoredExtraction "a" ((some 1 : Option ℕ)) 1 [],
         leafScoredExtraction "a" (some 2) (1 / 2) []])) ∧
    (sortedBestFirst
      [leafScoredExtraction "a" ((some 1 : Option ℕ)) 1 [],
       leafScoredExtraction "a" (some 2) (1 / 2) []]).Perm
      [leafScoredExtraction "a" ((some 1 : Option ℕ)) 1 [],
       leafScoredExtraction "a" (some 2) (1 / 2) []] ∧
    List.Pairwise (fun a b : ScoredExtraction ℕ => b.score ≤ a.score)
      (sortedBestFirst
        [leafScoredExtraction "a" ((some 1 : Option ℕ)) 1 [],
         leafScoredExtraction "a" (some 2) (1 / 2) []]) ∧
    ((generateResultsNode "u" ["a"]
        [leafScoredExtraction "a" ((some 1 : Option ℕ)) 1 [],
         leafScoredExtraction "a" (some 2) (1 / 2) []]).map ResultsNode.topScore =
      (sortedBestFirst
        [leafScoredExtraction "a" ((some 1 : Option ℕ)) 1 [],
         leafScoredExtraction "a" (some 2) (1 / 2) []]).head?.map ScoredExtraction.score) :=
  C5_amended_results_node "u" ["a"]
    [leafScoredExtraction "a" (some 1) 1 [], leafScoredExtraction "a" (some 2) (1 / 2) []]
    (by simp)

/-- The 21-yield history used by the C5 counterexample. -/
def c5History : List (ScoredExtraction ℕ) :=
  (List.range 21).map (fun i => leafScoredExtraction "f" (some i) 1 [])

/-- C5 counterexample: a bound node that yielded 21 extractions produces a
results node whose `top_20_extractions` has 21 entries, contradicting the
claim that it contains at most 20. -/
theorem C5_counterexample_no_truncation :
    ((generateResultsNode "u" ["f"] c5History).map
      (fun rn => rn.top20Extractions.length) = some 21) ∧
    ¬ ((sortedBestFirst c5History).length ≤ 20) := by
  have hne : c5History ≠ [] := by
    intro h
    have := congrArg List.length h
    simp [c5History] at this
  obtain ⟨b, hb, _, _⟩ := foldBest_spec c5History hne
  have hlen : (sortedBestFirst c5History).length = 21 := by
    simp only [sortedBestFirst]
    rw [(List.mergeSort_perm c5History
      (fun a b : ScoredExtraction ℕ => decide (b.score ≤ a.score))).length_eq]
    simp [c5History]
  constructor
  · simp [generateResultsNode, hb, hlen]
  · rw [hlen]
    norm_num

/-! ## Heap model (heapq)

The binary min-heaps of `heapq` are modelled as unordered buffers: push is
cons, and pop extracts the first minimal element under the comparison (the
element `heapq` pops is likewise a minimal one; only tie order differs, and
nothing proved here depends on tie order). -/

/-- Push onto a heap buffer. -/
def heapPush {T : Type} (h : List T) (t : T) : List T := t :: h

/-- Scan for the minimal element, returning it and the rest. -/
def heapPopAux {T : Type} (lt : T → T → Bool) : T → List T → T × List T
  | m, [] => (m, [])
  | m, x :: xs =>
    if lt x m then
      let r := heapPopAux lt x xs
      (r.1, m :: r.2)
    else
      let r := heapPopAux lt m xs
      (r.1, x :: r.2)

/-- Pop the minimal element of a heap buffer (`heapq.heappop`), when any. -/
def heapPop? {T : Type} (lt : T → T → Bool) : List T → Option (T × List T)
  | [] => none
  | t :: ts => some (heapPopAux lt t ts)

/-- The minimal element of a heap buffer (`heap[0]`), when any. -/
def heapTop? {T : Type} (lt : T → T → Bool) (h : List T) : Option T :=
  (heapPop? lt h).map Prod.fst

/-- Popping returns a permutation: the popped element plus the rest is the
original buffer. -/
theorem heapPopAux_perm {T : Type} (lt : T → T → Bool) (m : T) (xs : List T) :
    ((heapPopAux lt m xs).1 :: (heapPopAux lt m xs).2).Perm (m :: xs) := by
  induction xs generalizing m with
  | nil => simp [heapPopAux]
  | cons x xs ih =>
    simp only [heapPopAux]
    by_cases h : lt x m
    · rw [if_pos h]
      exact List.Perm.trans (List.Perm.swap _ _ _) ((ih x).cons m)
    · rw [if_neg h]
      exact List.Perm.trans (List.Perm.swap _ _ _)
        (List.Perm.trans ((ih m).cons x) (List.Perm.swap _ _ _))

/-- Popping a nonempty heap buffer yields a permutation of it. -/
theorem heapPop?_perm {T : Type} (lt : T → T → Bool) (h : List T) (t : T) (rest : List T)
    (hp : heapPop? lt h = some (t, rest)) : (t :: rest).Perm h := by
  match h with
  | [] => simp [heapPop?] at hp
  | x :: xs =>
    simp only [heapPop?, Option.some.injEq] at hp
    have := heapPopAux_perm lt x xs
    rw [show heapPopAux lt x xs = (t, rest) from hp] at this
    exact this

/-! ## Peeker (peeker.py) -/

/-- The state of a `Peeker`: the remaining underlying iterator and the
heap buffer. -/
structure Peeker (T : Type) where
  ts : List T
  heap : List T

/-- One `Peeker._step`: pull one element from the underlying iterator onto
the heap, absorbing its `StopIteration`. -/
def Peeker.stepP {T : Type} (p : Peeker T) : Peeker T :=
  match p.ts with
  | [] => p
  | x :: rest => ⟨rest, heapPush p.heap x⟩

/-- A `Peeker` after `initialize`: `peek_distance` steps from the fresh
state. -/
def peekerLoad {T : Type} (peekDistance : ℕ) (ts : List T) : Peeker T :=
  Peeker.stepP^[peekDistance] ⟨ts, []⟩

/-- One `Peeker.__next__`: step once, then pop the heap minimum; raises
`StopIteration` (returns `none`) when the heap is empty. -/
def peekerNext? {T : Type} (lt : T → T → Bool) (p : Peeker T) : Option (T × Peeker T) :=
  let p2 := p.stepP
  match heapPop? lt p2.heap with
  | none => none
  | some (t, rest) => some (t, ⟨p2.ts, rest⟩)

/-- `Peeker.top`: the heap minimum, when any. -/
def peekerTop? {T : Type} (lt : T → T → Bool) (p : Peeker T) : Option T :=
  heapTop? lt p.heap

/-- Exhaust a peeker, with fuel: the list of all elements it yields until
`StopIteration`, or `none` if the fuel runs out first. -/
def peekerRun {T : Type} (lt : T → T → Bool) : ℕ → Peeker T → Option (List T)
  | 0, _ => none
  | fuel + 1, p =>
    match peekerNext? lt p with
    | none => some []
    | some (t, p2) => (peekerRun lt fuel p2).map (t :: ·)

/-- Exhausting a fresh peeker with empty buffer yields the underlying list
in order. -/
theorem peekerRun_fresh {T : Type} (lt : T → T → Bool) :
    ∀ ts : List T, peekerRun lt (ts.length + 1) ⟨ts, []⟩ = some ts := by
  intro ts
  induction ts with
  | nil => rfl
  | cons x rest ih =>
    have hnext : peekerNext? lt (⟨x :: rest, []⟩ : Peeker T) = some (x, ⟨rest, []⟩) := rfl
    show peekerRun lt (rest.length + 1 + 1) ⟨x :: rest, []⟩ = some (x :: rest)
    rw [peekerRun, hnext]
    show Option.map (fun y => x :: y) (peekerRun lt (rest.length + 1) ⟨rest, []⟩) =
      some (x :: rest)
    rw [ih]
    rfl

/-- C8 amended: a `Peeker` with `peek_distance = 0` is the plain
pass-through: it yields exactly the underlying sequence in order. -/
theorem C8_amended_peeker_zero_passthrough {T : Type} (lt : T → T → Bool) (ts : List T) :
    peekerRun lt (ts.length + 1) (peekerLoad 0 ts) = some ts :=
  peekerRun_fresh lt ts

/-- C8 counterexample: with `peek_distance = 1` and underlying sequence
`[3, 1]`, the peeker yields `[1, 3]`: on the first `next` it pops the
smaller of the buffered 3 and the newly pulled 1, so the output is not the
underlying sequence in order. -/
theorem C8_counterexample_distance_one :
    peekerRun Nat.blt 3 (peekerLoad 1 [3, 1]) = some [1, 3] ∧
    peekerRun Nat.blt 3 (peekerLoad 1 [3, 1]) ≠ some [3, 1] := by
  have h1 : peekerRun Nat.blt 3 (peekerLoad 1 [3, 1]) = some [1, 3] := rfl
  refine ⟨h1, ?_⟩
  rw [h1]
  intro h
  exact absurd (Option.some.inj h) (by decide)

/-! ## Constructor validation (peeker.py, peeking_heap.py, smerger.py) -/

/-- The `peek_distance` check of `Peeker.__init__`: raises `ValueError` for
negative values only. -/
def peekerCheckPeekDistance (peekDistance : ℤ) : Except String Unit :=
  if peekDistance < 0 then
    .error "ValueError: peek_distance must be nonnegative"
  else .ok ()

/-- The `peek_distance` check of `PeekingHeap.__init__`: raises `ValueError`
for non-positive values. -/
def peekingHeapCheckPeekDistance (peekDistance : ℤ) : Except String Unit :=
  if peekDistance < 1 then
    .error "ValueError: peek_distance must be positive"
  else .ok ()

/-- The `peek_distance` check of `Smerger.__init__`: raises `ValueError`
for non-positive values. -/
def smergerCheckPeekDistance (peekDistance : ℤ) : Except String Unit :=
  if peekDistance < 1 then
    .error "ValueError: peek_distance must be positive"
  else .ok ()

/-- C9 amended: `PeekingHeap` and `Smerger` raise `ValueError` exactly for
non-positive (`< 1`) peek distances, but `Peeker` raises only for negative
ones: `Peeker(peek_distance=0)` is accepted. -/
theorem C9_amended_peek_distance_validation (d : ℤ) :
    ((∃ msg, peekerCheckPeekDistance d = .error msg) ↔ d < 0) ∧
    ((∃ msg, peekingHeapCheckPeekDistance d = .error msg) ↔ d < 1) ∧
    ((∃ msg, smergerCheckPeekDistance d = .error msg) ↔ d < 1) := by
  refine ⟨⟨?_, ?_⟩, ⟨?_, ?_⟩, ⟨?_, ?_⟩⟩
  · rintro ⟨msg, hmsg⟩
    by_contra hc
    unfold peekerCheckPeekDistance at hmsg
    rw [if_neg hc] at hmsg
    exact Except.noConfusion hmsg
  · intro hd
    exact ⟨"ValueError: peek_distance must be nonnegative",
      by simp [peekerCheckPeekDistance, hd]⟩
  · rintro ⟨msg, hmsg⟩
    by_contra hc
    unfold peekingHeapCheckPeekDistance at hmsg
    rw [if_neg hc] at hmsg
    exact Except.noConfusion hmsg
  · intro hd
    exact ⟨"ValueError: peek_distance must be positive",
      by simp [peekingHeapCheckPeekDistance, hd]⟩
  · rintro ⟨msg, hmsg⟩
    by_contra hc
    unfold smergerCheckPeekDistance at hmsg
    rw [if_neg hc] at hmsg
    exact Except.noConfusion hmsg
  · intro hd
    exact ⟨"ValueError: peek_distance must be positive",
      by simp [smergerCheckPeekDistance, hd]⟩

/-- C9 counterexample: constructing a `Peeker` with `peek_distance = 0`
does not raise, contrary to the claim that all three constructors raise on
non-positive peek distances. -/
theorem C9_counterexample_peeker_zero :
    peekerCheckPeekDistance 0 = .ok () ∧
    ¬ (∃ msg, peekerCheckPeekDistance 0 = .error msg) := by
  constructor
  · rfl
  · rintro ⟨msg, hmsg⟩
    simp [peekerCheckPeekDistance] at hmsg

/-! ## Smerger (smerger.py)

The binary smerger, as used by `BoundCombineNode` (`smerger.py` notes that
prefilters are only correct for binary smergers). Both streams carry the
trivial prefilter: a list of the elements seen so far plus the best one,
compatible with everything (`trivial_prefilter.TrivialPrefilter`). -/

/-- The parameters of a `Smerger` over elements of type `T`: the element
comparison (`T.__lt__`, used by the heaps and the prefilter best-tracking),
the merger, the norm estimator and getter, the flags, and the `is_empty`
test with the default empty element (`ScoredExtraction.build()`) used by the
`all_or_nothing` logic. -/
structure SmergerParams (T : Type) where
  lt : T → T → Bool
  merger : T → T → Option T
  normEstimator : T → T → ℚ
  normGetter : T → ℚ
  allOrNothing : Bool
  peekDistance : ℕ
  optimistic : Bool
  isEmptyT : T → Bool
  builtEmpty : T

/-- A `_Stream`: a peeker plus its trivial prefilter (seen list and best
element). -/
structure SmStream (T : Type) where
  peeker : Peeker T
  seen : List T
  best : Option T

/-- `TrivialPrefilter.add`: record the element and keep the best. -/
def SmStream.add {T : Type} (P : SmergerParams T) (s : SmStream T) (t : T) : SmStream T :=
  { s with
    seen := s.seen ++ [t]
    best :=
      match s.best with
      | none => some t
      | some b => if P.lt t b then some t else some b }

/-- `_Stream.__next__`: advance the peeker and feed the element to the
prefilter. -/
def smStreamNext? {T : Type} (P : SmergerParams T) (s : SmStream T) :
    Option (T × SmStream T) :=
  match peekerNext? P.lt s.peeker with
  | none => none
  | some (t, p2) => some (t, SmStream.add P { s with peeker := p2 } t)

/-- `_Stream.build_trivial`: an initialized stream over an empty iterator
whose prefilter holds one default-built empty extraction. -/
def buildTrivialStream {T : Type} (P : SmergerParams T) : SmStream T :=
  { peeker := peekerLoad 1 []
    seen := [P.builtEmpty]
    best := some P.builtEmpty }

/-- The state of a binary smerger: its two streams and the output heap. -/
structure SmState (T : Type) where
  s1 : SmStream T
  s2 : SmStream T
  heap : List T

/-- The top of the first stream's peeker. -/
def smTop1 {T : Type} (P : SmergerParams T) (st : SmState T) : Option T :=
  peekerTop? P.lt st.s1.peeker

/-- The top of the second stream's peeker. -/
def smTop2 {T : Type} (P : SmergerParams T) (st : SmState T) : Option T :=
  peekerTop? P.lt st.s2.peeker

/-- `Smerger._step` on the first stream: advance it by one element and push
onto the output heap the non-null merges of that element with every
prefilter-compatible element of the other stream. -/
def smStep1 {T : Type} (P : SmergerParams T) (st : SmState T) : SmState T :=
  match smStreamNext? P st.s1 with
  | none => st
  | some (t, s1') =>
    { st with
      s1 := s1'
      heap := (st.s2.seen.filterMap (fun y => P.merger t y)).foldl heapPush st.heap }

/-- `Smerger._step` on the second stream. -/
def smStep2 {T : Type} (P : SmergerParams T) (st : SmState T) : SmState T :=
  match smStreamNext? P st.s2 with
  | none => st
  | some (t, s2') =>
    { st with
      s2 := s2'
      heap := (st.s1.seen.filterMap (fun x => P.merger x t)).foldl heapPush st.heap }

/-- `Smerger._optimistic_norm` of the first stream: the norm estimate of the
tuple made of this stream's peeker top and the other stream's best. The
defaults are unreachable under the source's assertions. -/
def optNorm1 {T : Type} (P : SmergerParams T) (st : SmState T) : ℚ :=
  match smTop1 P st, st.s2.best with
  | some t, some b => P.normEstimator t b
  | _, _ => 0

/-- `Smerger._optimistic_norm` of the second stream. -/
def optNorm2 {T : Type} (P : SmergerParams T) (st : SmState T) : ℚ :=
  match st.s1.best, smTop2 P st with
  | some b, some t => P.normEstimator b t
  | _, _ => 0

/-- Total number of elements still inside the two peekers: an upper bound on
the number of iterations of either while-loop of `Smerger.__next__`. -/
def smRemaining {T : Type} (st : SmState T) : ℕ :=
  st.s1.peeker.ts.length + st.s1.peeker.heap.length +
  st.s2.peeker.ts.length + st.s2.peeker.heap.length

/-- The guard of the first while-loop of `Smerger.__next__`: the output heap
is empty and some peeker still has a top. -/
def smLoopACond {T : Type} (P : SmergerParams T) (st : SmState T) : Bool :=
  st.heap.isEmpty && ((smTop1 P st).isSome || (smTop2 P st).isSome)

/-- The body of the first while-loop: step the not-yet-exhausted stream of
smallest optimistic norm (the source's `arg_min` keeps the first stream on
a tie). -/
def smLoopAStep {T : Type} (P : SmergerParams T) (st : SmState T) : SmState T :=
  if (smTop1 P st).isSome && (smTop2 P st).isSome then
    (if optNorm2 P st < optNorm1 P st then smStep2 P st else smStep1 P st)
  else if (smTop1 P st).isSome then smStep1 P st else smStep2 P st

/-- The first while-loop of `Smerger.__next__`, with fuel. -/
def smLoopA {T : Type} (P : SmergerParams T) : ℕ → SmState T → SmState T
  | 0, st => st
  | fuel + 1, st =>
    if smLoopACond P st then smLoopA P fuel (smLoopAStep P st) else st

/-- Whether the first stream is `appealing`: its top exists and its
optimistic norm beats the norm of the output heap's top. -/
def appealing1 {T : Type} (P : SmergerParams T) (st : SmState T) : Bool :=
  (smTop1 P st).isSome &&
    decide (optNorm1 P st <
      (match heapTop? P.lt st.heap with
       | some h0 => P.normGetter h0
       | none => 0))

/-- Whether the second stream is `appealing`. -/
def appealing2 {T : Type} (P : SmergerParams T) (st : SmState T) : Bool :=
  (smTop2 P st).isSome &&
    decide (optNorm2 P st <
      (match heapTop? P.lt st.heap with
       | some h0 => P.normGetter h0
       | none => 0))

/-- The guard of the optimistic while-loop: some stream is appealing. -/
def smLoopBCond {T : Type} (P : SmergerParams T) (st : SmState T) : Bool :=
  appealing1 P st || appealing2 P st

/-- The body of the optimistic while-loop: step the appealing stream of
smallest optimistic norm. -/
def smLoopBStep {T : Type} (P : SmergerParams T) (st : SmState T) : SmState T :=
  if appealing1 P st && appealing2 P st then
    (if optNorm2 P st < optNorm1 P st then smStep2 P st else smStep1 P st)
  else if appealing1 P st then smStep1 P st else smStep2 P st

/-- The optimistic while-loop of `Smerger.__next__`, with fuel: while some
stream is appealing, step the appealing stream of smallest optimistic
norm. -/
def smLoopB {T : Type} (P : SmergerParams T) : ℕ → SmState T → SmState T
  | 0, st => st
  | fuel + 1, st =>
    if smLoopBCond P st then smLoopB P fuel (smLoopBStep P st) else st

/-- `Smerger.__next__`: when every prefilter has a best, run the stepping
loop (and, if `optimistic` and the heap is nonempty, the optimistic loop),
then pop the output heap, raising `StopIteration` (`none`) when it is
empty. The loop fuels bound the loops' iteration counts: each iteration
consumes one peeker element. -/
def smergerNext? {T : Type} (P : SmergerParams T) (st : SmState T) :
    Option (T × SmState T) :=
  let st1 :=
    if st.s1.best.isSome && st.s2.best.isSome then
      let stA := smLoopA P (smRemaining st + 1) st
      if P.optimistic && !stA.heap.isEmpty then smLoopB P (smRemaining stA + 1) stA
      else stA
    else st
  match heapPop? P.lt st1.heap with
  | none => none
  | some (t, rest) => some (t, { st1 with heap := rest })

/-- `Smerger.initialize` for two input iterators: build the two streams with
initialized peekers; under `all_or_nothing`, if some stream's top is the
empty extraction, replace every other stream by a trivial one; then step
every stream whose peeker has a top (first stream first). -/
def smInitState {T : Type} (P : SmergerParams T) (xs ys : List T) : SmState T :=
  let s1 : SmStream T := ⟨peekerLoad P.peekDistance xs, [], none⟩
  let s2 : SmStream T := ⟨peekerLoad P.peekDistance ys, [], none⟩
  let onlyEmpty : SmStream T → Bool := fun s =>
    match peekerTop? P.lt s.peeker with
    | some t => P.isEmptyT t
    | none => false
  let s1b := if P.allOrNothing && (onlyEmpty s1 || onlyEmpty s2) then
      (if onlyEmpty s1 then s1 else buildTrivialStream P)
    else s1
  let s2b := if P.allOrNothing && (onlyEmpty s1 || onlyEmpty s2) then
      (if onlyEmpty s2 then s2 else buildTrivialStream P)
    else s2
  let st0 : SmState T := ⟨s1b, s2b, []⟩
  let st1 := if (smTop1 P st0).isSome then smStep1 P st0 else st0
  if (smTop2 P st1).isSome then smStep2 P st1 else st1

/-- Exhaust a smerger, with fuel: the list of elements it yields until
`StopIteration`, or `none` if the fuel runs out first. -/
def smergerRun {T : Type} (P : SmergerParams T) : ℕ → SmState T → Option (List T)
  | 0, _ => none
  | fuel + 1, st =>
    match smergerNext? P st with
    | none => some []
    | some (t, st') => (smergerRun P fuel st').map (t :: ·)

/-! ## Smerger correctness infrastructure -/

/-- Popping leaves one element fewer. -/
theorem heapPopAux_length {T : Type} (lt : T → T → Bool) (m : T) (xs : List T) :
    (heapPopAux lt m xs).2.length = xs.length := by
  induction xs generalizing m with
  | nil => rfl
  | cons x xs ih =>
    simp only [heapPopAux]
    by_cases h : lt x m <;> simp [h, ih]

/-- Popping a nonempty buffer succeeds. -/
theorem heapPop?_some {T : Type} (lt : T → T → Bool) (h : List T) (hne : h ≠ []) :
    ∃ t rest, heapPop? lt h = some (t, rest) := by
  match h with
  | [] => exact absurd rfl hne
  | x :: xs => exact ⟨_, _, rfl⟩

/-- The peeker's top exists exactly when its heap is nonempty. -/
theorem peekerTop?_isSome {T : Type} (lt : T → T → Bool) (p : Peeker T) :
    (peekerTop? lt p).isSome = !p.heap.isEmpty := by
  cases hh : p.heap <;> simp [peekerTop?, heapTop?, heapPop?, hh]

/-- Stepping a peeker preserves its contents as a multiset. -/
theorem stepP_coe {T : Type} (p : Peeker T) :
    ((p.stepP.heap ++ p.stepP.ts : List T) : Multiset T) = ↑(p.heap ++ p.ts) := by
  cases hts : p.ts with
  | nil => simp [Peeker.stepP, hts]
  | cons x rest =>
    simp only [Peeker.stepP, hts, heapPush]
    exact Multiset.coe_eq_coe.mpr List.perm_middle.symm

/-- Stepping a peeker preserves the total element count. -/
theorem stepP_length {T : Type} (p : Peeker T) :
    p.stepP.heap.length + p.stepP.ts.length = p.heap.length + p.ts.length := by
  cases hts : p.ts <;> simp [Peeker.stepP, hts, heapPush] <;> omega

/-- Stepping a peeker with a nonempty heap keeps the heap nonempty. -/
theorem stepP_heap_ne {T : Type} (p : Peeker T) (h : p.heap ≠ []) :
    p.stepP.heap ≠ [] := by
  cases hts : p.ts <;> simp [Peeker.stepP, hts, heapPush, h]

/-- One `next` on a peeker with a nonempty heap: an element comes out, the
contents shrink by that element, the drained invariant is re-established,
and the count drops by one. -/
theorem peekerNext?_spec {T : Type} (lt : T → T → Bool) (p : Peeker T)
    (hne : p.heap ≠ []) :
    ∃ t p', peekerNext? lt p = some (t, p') ∧
      (t ::ₘ (↑(p'.heap ++ p'.ts) : Multiset T)) = ↑(p.heap ++ p.ts) ∧
      (p'.heap = [] → p'.ts = []) ∧
      p'.heap.length + p'.ts.length + 1 = p.heap.length + p.ts.length := by
  have h2ne : p.stepP.heap ≠ [] := stepP_heap_ne p hne
  obtain ⟨t, rest, hpop⟩ := heapPop?_some lt p.stepP.heap h2ne
  refine ⟨t, ⟨p.stepP.ts, rest⟩, ?_, ?_, ?_, ?_⟩
  · simp [peekerNext?, hpop]
  · have hperm := heapPop?_perm lt p.stepP.heap t rest hpop
    have : ((t :: rest ++ p.stepP.ts : List T) : Multiset T) = ↑(p.stepP.heap ++ p.stepP.ts) :=
      Multiset.coe_eq_coe.mpr (hperm.append_right p.stepP.ts)
    calc t ::ₘ (↑(rest ++ p.stepP.ts) : Multiset T)
        = ↑(t :: rest ++ p.stepP.ts) := by simp
      _ = ↑(p.stepP.heap ++ p.stepP.ts) := this
      _ = ↑(p.heap ++ p.ts) := stepP_coe p
  · intro hrest
    subst hrest
    have hlen := heapPopAux_length lt
    have hperm := heapPop?_perm lt p.stepP.heap t [] hpop
    have hlen1 : p.stepP.heap.length = 1 := by
      have := hperm.length_eq
      simpa using this.symm
    cases hts : p.ts with
    | nil => simp [Peeker.stepP, hts]
    | cons x r =>
      exfalso
      have : p.stepP.heap = x :: p.heap := by simp [Peeker.stepP, hts, heapPush]
      rw [this] at hlen1
      simp at hlen1
      exact hne hlen1
  · have hperm := heapPop?_perm lt p.stepP.heap t rest hpop
    have h1 : rest.length + 1 = p.stepP.heap.length := by
      simpa using hperm.length_eq
    have h2 := stepP_length p
    show rest.length + p.stepP.ts.length + 1 = p.heap.length + p.ts.length
    omega

/-- Loading a peeker preserves the contents. -/
theorem peekerLoad_coe {T : Type} (d : ℕ) (xs : List T) :
    ((( peekerLoad d xs).heap ++ (peekerLoad d xs).ts : List T) : Multiset T) = ↑xs := by
  induction d with
  | zero => simp [peekerLoad]
  | succ k ih =>
    have : peekerLoad (k + 1) xs = (peekerLoad k xs).stepP := by
      simp [peekerLoad, Function.iterate_succ_apply']
    rw [this, stepP_coe]
    exact ih

/-- Loading a nonempty iterator with positive peek distance gives a
nonempty heap. -/
theorem peekerLoad_heap_ne {T : Type} (d : ℕ) (hd : 1 ≤ d) (xs : List T) (hxs : xs ≠ []) :
    (peekerLoad d xs).heap ≠ [] := by
  obtain ⟨k, rfl⟩ := Nat.exists_eq_add_of_le hd
  induction k with
  | zero =>
    match xs with
    | [] => exact absurd rfl hxs
    | x :: rest => simp [peekerLoad, Peeker.stepP, heapPush]
  | succ k ih =>
    have : peekerLoad (1 + (k + 1)) xs = (peekerLoad (1 + k) xs).stepP := by
      simp [peekerLoad, ← Nat.add_assoc, Function.iterate_succ_apply']
    rw [this]
    exact stepP_heap_ne _ (ih (by omega))

/-- Loading an empty iterator gives the empty peeker. -/
theorem peekerLoad_nil {T : Type} (d : ℕ) : (peekerLoad d []) = (⟨[], []⟩ : Peeker T) := by
  induction d with
  | zero => rfl
  | succ k ih =>
    have : peekerLoad (k + 1) ([] : List T) = (peekerLoad k ([] : List T)).stepP := by
      simp [peekerLoad, Function.iterate_succ_apply']
    rw [this, ih]
    rfl

/-- A freshly loaded peeker satisfies the drained invariant when the peek
distance is positive. -/
theorem peekerLoad_drained {T : Type} (d : ℕ) (hd : 1 ≤ d) (xs : List T) :
    (peekerLoad d xs).heap = [] → (peekerLoad d xs).ts = [] := by
  intro hh
  match hxs : xs with
  | [] => rw [peekerLoad_nil]
  | x :: rest => exact absurd hh (peekerLoad_heap_ne d hd _ (by simp))

/-- Loading a one-element iterator with positive peek distance pulls the
element into the heap; the extra steps are no-ops. -/
theorem peekerLoad_singleton {T : Type} (d : ℕ) (hd : 1 ≤ d) (x : T) :
    peekerLoad d [x] = (⟨[], [x]⟩ : Peeker T) := by
  obtain ⟨k, rfl⟩ := Nat.exists_eq_add_of_le hd
  clear hd
  induction k with
  | zero => rfl
  | succ k ih =>
    have hstep : peekerLoad (1 + (k + 1)) [x] = (peekerLoad (1 + k) [x]).stepP := by
      simp [peekerLoad, ← Nat.add_assoc, Function.iterate_succ_apply']
    rw [hstep, ih]
    rfl

/-- The stream invariant: the seen prefix plus the peeker contents are the
input list; the peeker is drained coherently; the prefilter's best exists
exactly when something was seen. -/
structure SmStreamInv {T : Type} (xs : List T) (s : SmStream T) : Prop where
  conserve : (↑(s.seen ++ s.peeker.heap ++ s.peeker.ts) : Multiset T) = ↑xs
  drained : s.peeker.heap = [] → s.peeker.ts = []
  bestSeen : s.best.isSome = !s.seen.isEmpty

/-- The number of elements still inside a stream's peeker. -/
def sRemaining {T : Type} (s : SmStream T) : ℕ :=
  s.peeker.heap.length + s.peeker.ts.length

/-- One `next` on a stream whose peeker has a top: the invariant is
preserved, the element is appended to the seen list, the best exists, and
the stream shrinks by one. -/
theorem smStreamNext?_spec {T : Type} (P : SmergerParams T) (xs : List T) (s : SmStream T)
    (hinv : SmStreamInv xs s) (htop : (peekerTop? P.lt s.peeker).isSome = true) :
    ∃ t s', smStreamNext? P s = some (t, s') ∧
      s'.seen = s.seen ++ [t] ∧ SmStreamInv xs s' ∧ s'.best.isSome = true ∧
      sRemaining s' + 1 = sRemaining s := by
  have hne : s.peeker.heap ≠ [] := by
    rw [peekerTop?_isSome] at htop
    intro hc
    simp [hc] at htop
  obtain ⟨t, p', hnext, hcoe, hdr, hlen⟩ := peekerNext?_spec P.lt s.peeker hne
  refine ⟨t, SmStream.add P { s with peeker := p' } t, ?_, rfl, ?_, ?_, ?_⟩
  · simp [smStreamNext?, hnext]
  · refine ⟨?_, hdr, ?_⟩
    · show (↑((s.seen ++ [t]) ++ p'.heap ++ p'.ts) : Multiset T) = ↑xs
      rw [← hinv.conserve]
      have hsub : ([t] ++ (p'.heap ++ p'.ts)).Perm (s.peeker.heap ++ s.peeker.ts) :=
        Multiset.coe_eq_coe.mp (by simpa using hcoe)
      have hmain := hsub.append_left s.seen
      exact Multiset.coe_eq_coe.mpr (by simpa [List.append_assoc] using hmain)
    · show (SmStream.add P { s with peeker := p' } t).best.isSome =
        !(SmStream.add P { s with peeker := p' } t).seen.isEmpty
      simp only [SmStream.add]
      cases s.best with
      | none => simp
      | some b => by_cases hlt : P.lt t b <;> simp [hlt]
  · simp only [SmStream.add]
    cases s.best with
    | none => simp
    | some b => by_cases hlt : P.lt t b <;> simp [hlt]
  · show sRemaining ⟨p', s.seen ++ [t], _⟩ + 1 = sRemaining s
    simp only [sRemaining]
    omega

/-- Folding pushes onto a heap buffer concatenates, as multisets. -/
theorem foldl_heapPush_eq {T : Type} (l : List T) (h : List T) :
    l.foldl heapPush h = l.reverse ++ h := by
  induction l generalizing h with
  | nil => rfl
  | cons a l ih =>
    simp [List.foldl_cons, heapPush, ih, List.append_assoc]

/-- The target multiset: the non-null merges of all pairs. -/
def targetPairs {T : Type} (P : SmergerParams T) (l₁ l₂ : List T) : List T :=
  (l₁ ×ˢ l₂).filterMap (fun p => P.merger p.1 p.2)

/-- Products distribute over appending on the left. -/
theorem product_append_left {α β : Type} (l₁ l₂ : List α) (l : List β) :
    (l₁ ++ l₂) ×ˢ l = l₁ ×ˢ l ++ l₂ ×ˢ l := by
  induction l₁ with
  | nil => rfl
  | cons a l₁ ih => simp [List.product_cons, ih, List.append_assoc]

/-- Extending the left operand of the target by one element adds the merges
of the new element with the whole right operand. -/
theorem targetPairs_snoc_left {T : Type} (P : SmergerParams T) (l₁ l₂ : List T) (t : T) :
    targetPairs P (l₁ ++ [t]) l₂ =
      targetPairs P l₁ l₂ ++ l₂.filterMap (fun y => P.merger t y) := by
  simp only [targetPairs, product_append_left, List.filterMap_append]
  congr 1
  simp [List.product_cons, List.filterMap_map]
  rfl

/-- Extending the right operand of the target by one element adds the
merges of the whole left operand with the new element, as multisets. -/
theorem targetPairs_snoc_right {T : Type} (P : SmergerParams T) (l₁ l₂ : List T) (t : T) :
    (↑(targetPairs P l₁ (l₂ ++ [t])) : Multiset T) =
      ↑(targetPairs P l₁ l₂) + ↑(l₁.filterMap (fun x => P.merger x t)) := by
  induction l₁ with
  | nil => simp [targetPairs]
  | cons a l ih =>
    have hsplit : ∀ L : List T, targetPairs P (a :: l) L =
        L.filterMap (fun y => P.merger a y) ++ targetPairs P l L := by
      intro L
      simp only [targetPairs, List.product_cons, List.filterMap_append, List.filterMap_map]
      rfl
    rw [hsplit (l₂ ++ [t]), hsplit l₂]
    have hfm : ((l₂ ++ [t]).filterMap (fun y => P.merger a y)) =
        l₂.filterMap (fun y => P.merger a y) ++ (P.merger a t).toList := by
      rw [List.filterMap_append]
      congr 1
    have hcons : (↑((a :: l).filterMap (fun x => P.merger x t)) : Multiset T) =
        ↑((P.merger a t).toList) + ↑(l.filterMap (fun x => P.merger x t)) := by
      cases hma : P.merger a t <;> simp [List.filterMap_cons, hma]
    rw [hfm, ← Multiset.coe_add, ← Multiset.coe_add, ← Multiset.coe_add, ih, hcons]
    abel

/-- The smerger invariant: both streams are coherent, a stream that has
seen nothing had an empty input, and the output heap plus the elements
already emitted are exactly the non-null merges of all pairs of seen
elements. -/
structure SmInv {T : Type} (P : SmergerParams T) (xs ys : List T) (st : SmState T)
    (out : List T) : Prop where
  inv1 : SmStreamInv xs st.s1
  inv2 : SmStreamInv ys st.s2
  seed1 : st.s1.seen = [] → xs = []
  seed2 : st.s2.seen = [] → ys = []
  pairs : (↑(st.heap ++ out) : Multiset T) = ↑(targetPairs P st.s1.seen st.s2.seen)

/-- Stepping the first stream preserves the invariant, shrinks the peekers
by one element, and never empties the heap. -/
theorem smStep1_spec {T : Type} (P : SmergerParams T) (xs ys : List T) (st : SmState T)
    (out : List T) (hinv : SmInv P xs ys st out) (htop : (smTop1 P st).isSome = true) :
    SmInv P xs ys (smStep1 P st) out ∧
    smRemaining (smStep1 P st) + 1 = smRemaining st ∧
    (st.heap ≠ [] → (smStep1 P st).heap ≠ []) := by
  obtain ⟨t, s1', hnext, hseen, hinv1', hbest', hrem⟩ :=
    smStreamNext?_spec P xs st.s1 hinv.inv1 htop
  have hstep : smStep1 P st =
      { st with
        s1 := s1'
        heap := (st.s2.seen.filterMap (fun y => P.merger t y)).foldl heapPush st.heap } := by
    simp [smStep1, hnext]
  rw [hstep]
  refine ⟨⟨hinv1', hinv.inv2, ?_, hinv.seed2, ?_⟩, ?_, ?_⟩
  · intro hc
    rw [hseen] at hc
    simp at hc
  · show (↑((st.s2.seen.filterMap (fun y => P.merger t y)).foldl heapPush st.heap ++ out) :
      Multiset T) = ↑(targetPairs P s1'.seen st.s2.seen)
    rw [hseen, foldl_heapPush_eq, targetPairs_snoc_left]
    rw [← Multiset.coe_add, ← Multiset.coe_add, ← Multiset.coe_add]
    have hrev : (↑(st.s2.seen.filterMap (fun y => P.merger t y)).reverse : Multiset T) =
        ↑(st.s2.seen.filterMap (fun y => P.merger t y)) :=
      Multiset.coe_eq_coe.mpr (List.reverse_perm _)
    rw [hrev]
    have hp := hinv.pairs
    rw [← Multiset.coe_add] at hp
    rw [← hp]
    abel
  · simp only [smRemaining, sRemaining] at hrem ⊢
    omega
  · intro hne
    show (st.s2.seen.filterMap (fun y => P.merger t y)).foldl heapPush st.heap ≠ []
    rw [foldl_heapPush_eq]
    intro hc
    rw [List.append_eq_nil] at hc
    exact hne hc.2

/-- Stepping the second stream preserves the invariant, shrinks the peekers
by one element, and never empties the heap. -/
theorem smStep2_spec {T : Type} (P : SmergerParams T) (xs ys : List T) (st : SmState T)
    (out : List T) (hinv : SmInv P xs ys st out) (htop : (smTop2 P st).isSome = true) :
    SmInv P xs ys (smStep2 P st) out ∧
    smRemaining (smStep2 P st) + 1 = smRemaining st ∧
    (st.heap ≠ [] → (smStep2 P st).heap ≠ []) := by
  obtain ⟨t, s2', hnext, hseen, hinv2', hbest', hrem⟩ :=
    smStreamNext?_spec P ys st.s2 hinv.inv2 htop
  have hstep : smStep2 P st =
      { st with
        s2 := s2'
        heap := (st.s1.seen.filterMap (fun x => P.merger x t)).foldl heapPush st.heap } := by
    simp [smStep2, hnext]
  rw [hstep]
  refine ⟨⟨hinv.inv1, hinv2', hinv.seed1, ?_, ?_⟩, ?_, ?_⟩
  · intro hc
    rw [hseen] at hc
    simp at hc
  · show (↑((st.s1.seen.filterMap (fun x => P.merger x t)).foldl heapPush st.heap ++ out) :
      Multiset T) = ↑(targetPairs P st.s1.seen s2'.seen)
    rw [hseen, foldl_heapPush_eq]
    rw [← Multiset.coe_add, ← Multiset.coe_add, targetPairs_snoc_right]
    have hrev : (↑(st.s1.seen.filterMap (fun x => P.merger x t)).reverse : Multiset T) =
        ↑(st.s1.seen.filterMap (fun x => P.merger x t)) :=
      Multiset.coe_eq_coe.mpr (List.reverse_perm _)
    rw [hrev]
    have hp := hinv.pairs
    rw [← Multiset.coe_add] at hp
    rw [← hp]
    abel
  · simp only [smRemaining, sRemaining] at hrem ⊢
    omega
  · intro hne
    show (st.s1.seen.filterMap (fun x => P.merger x t)).foldl heapPush st.heap ≠ []
    rw [foldl_heapPush_eq]
    intro hc
    rw [List.append_eq_nil] at hc
    exact hne hc.2

/-- Stepping the first stream shrinks the peekers, with no invariant
hypothesis. -/
theorem smStep1_remaining {T : Type} (P : SmergerParams T) (st : SmState T)
    (htop : (smTop1 P st).isSome = true) :
    smRemaining (smStep1 P st) + 1 = smRemaining st := by
  have hne : st.s1.peeker.heap ≠ [] := by
    rw [smTop1, peekerTop?_isSome] at htop
    intro hc
    simp [hc] at htop
  obtain ⟨t, p', hnext, _, _, hlen⟩ := peekerNext?_spec P.lt st.s1.peeker hne
  have hsn : smStreamNext? P st.s1 = some (t, SmStream.add P { st.s1 with peeker := p' } t) := by
    simp [smStreamNext?, hnext]
  simp only [smStep1, hsn, smRemaining, SmStream.add]
  omega

/-- Stepping the second stream shrinks the peekers, with no invariant
hypothesis. -/
theorem smStep2_remaining {T : Type} (P : SmergerParams T) (st : SmState T)
    (htop : (smTop2 P st).isSome = true) :
    smRemaining (smStep2 P st) + 1 = smRemaining st := by
  have hne : st.s2.peeker.heap ≠ [] := by
    rw [smTop2, peekerTop?_isSome] at htop
    intro hc
    simp [hc] at htop
  obtain ⟨t, p', hnext, _, _, hlen⟩ := peekerNext?_spec P.lt st.s2.peeker hne
  have hsn : smStreamNext? P st.s2 = some (t, SmStream.add P { st.s2 with peeker := p' } t) := by
    simp [smStreamNext?, hnext]
  simp only [smStep2, hsn, smRemaining, SmStream.add]
  omega

/-- The chosen loop-body step preserves the invariant and shrinks the
peekers, provided some stream still has a top. -/
theorem smLoopAStep_spec {T : Type} (P : SmergerParams T) (xs ys : List T) (st : SmState T)
    (out : List T) (hinv : SmInv P xs ys st out)
    (hor : ((smTop1 P st).isSome || (smTop2 P st).isSome) = true) :
    SmInv P xs ys (smLoopAStep P st) out ∧
    smRemaining (smLoopAStep P st) + 1 = smRemaining st ∧
    (st.heap ≠ [] → (smLoopAStep P st).heap ≠ []) := by
  unfold smLoopAStep
  by_cases h1 : (smTop1 P st).isSome = true
  · by_cases h2 : (smTop2 P st).isSome = true
    · rw [if_pos (by rw [h1, h2]; rfl)]
      by_cases hcmp : optNorm2 P st < optNorm1 P st
      · rw [if_pos hcmp]
        exact smStep2_spec P xs ys st out hinv h2
      · rw [if_neg hcmp]
        exact smStep1_spec P xs ys st out hinv h1
    · rw [if_neg (by simp [h2]), if_pos h1]
      exact smStep1_spec P xs ys st out hinv h1
  · have h2 : (smTop2 P st).isSome = true := by
      rcases Bool.or_eq_true_iff.mp hor with h | h
      · exact absurd h h1
      · exact h
    rw [if_neg (by simp [h1]), if_neg h1]
    exact smStep2_spec P xs ys st out hinv h2

/-- The chosen loop-body step shrinks the peekers, with no invariant
hypothesis. -/
theorem smLoopAStep_remaining {T : Type} (P : SmergerParams T) (st : SmState T)
    (hor : ((smTop1 P st).isSome || (smTop2 P st).isSome) = true) :
    smRemaining (smLoopAStep P st) + 1 = smRemaining st := by
  unfold smLoopAStep
  by_cases h1 : (smTop1 P st).isSome = true
  · by_cases h2 : (smTop2 P st).isSome = true
    · rw [if_pos (by rw [h1, h2]; rfl)]
      by_cases hcmp : optNorm2 P st < optNorm1 P st
      · rw [if_pos hcmp]
        exact smStep2_remaining P st h2
      · rw [if_neg hcmp]
        exact smStep1_remaining P st h1
    · rw [if_neg (by simp [h2]), if_pos h1]
      exact smStep1_remaining P st h1
  · have h2 : (smTop2 P st).isSome = true := by
      rcases Bool.or_eq_true_iff.mp hor with h | h
      · exact absurd h h1
      · exact h
    rw [if_neg (by simp [h1]), if_neg h1]
    exact smStep2_remaining P st h2

/-- The stepping loop preserves the invariant. -/
theorem smLoopA_inv {T : Type} (P : SmergerParams T) (xs ys : List T) :
    ∀ (fuel : ℕ) (st : SmState T) (out : List T), SmInv P xs ys st out →
      SmInv P xs ys (smLoopA P fuel st) out := by
  intro fuel
  induction fuel with
  | zero => exact fun st out h => h
  | succ k ih =>
    intro st out h
    rw [smLoopA]
    by_cases hc : smLoopACond P st = true
    · rw [if_pos hc]
      have hor : ((smTop1 P st).isSome || (smTop2 P st).isSome) = true :=
        (Bool.and_eq_true_iff.mp hc).2
      exact ih _ _ (smLoopAStep_spec P xs ys st out h hor).1
    · rw [if_neg hc]
      exact h

/-- With enough fuel the stepping loop reaches its exit condition. -/
theorem smLoopA_exit {T : Type} (P : SmergerParams T) :
    ∀ (fuel : ℕ) (st : SmState T), smRemaining st + 1 ≤ fuel →
      smLoopACond P (smLoopA P fuel st) = false := by
  intro fuel
  induction fuel with
  | zero => intro st h; omega
  | succ k ih =>
    intro st h
    rw [smLoopA]
    by_cases hc : smLoopACond P st = true
    · rw [if_pos hc]
      have hor : ((smTop1 P st).isSome || (smTop2 P st).isSome) = true :=
        (Bool.and_eq_true_iff.mp hc).2
      have hrem := smLoopAStep_remaining P st hor
      exact ih _ (by omega)
    · rw [if_neg hc]
      exact Bool.not_eq_true _ ▸ (by simpa using hc)

/-- Stepping never empties a nonempty heap, with no hypotheses. -/
theorem smStep1_heap_ne {T : Type} (P : SmergerParams T) (st : SmState T)
    (hne : st.heap ≠ []) : (smStep1 P st).heap ≠ [] := by
  unfold smStep1
  cases hsn : smStreamNext? P st.s1 with
  | none => exact hne
  | some p =>
    simp only
    rw [foldl_heapPush_eq]
    intro hc
    rw [List.append_eq_nil] at hc
    exact hne hc.2

/-- Stepping never empties a nonempty heap, with no hypotheses. -/
theorem smStep2_heap_ne {T : Type} (P : SmergerParams T) (st : SmState T)
    (hne : st.heap ≠ []) : (smStep2 P st).heap ≠ [] := by
  unfold smStep2
  cases hsn : smStreamNext? P st.s2 with
  | none => exact hne
  | some p =>
    simp only
    rw [foldl_heapPush_eq]
    intro hc
    rw [List.append_eq_nil] at hc
    exact hne hc.2

/-- The optimistic loop body preserves the invariant. -/
theorem smLoopBStep_spec {T : Type} (P : SmergerParams T) (xs ys : List T) (st : SmState T)
    (out : List T) (hinv : SmInv P xs ys st out) (hor : smLoopBCond P st = true) :
    SmInv P xs ys (smLoopBStep P st) out := by
  unfold smLoopBStep
  by_cases h1 : appealing1 P st = true
  · have ht1 : (smTop1 P st).isSome = true := (Bool.and_eq_true_iff.mp h1).1
    by_cases h2 : appealing2 P st = true
    · have ht2 : (smTop2 P st).isSome = true := (Bool.and_eq_true_iff.mp h2).1
      rw [if_pos (by rw [h1, h2]; rfl)]
      by_cases hcmp : optNorm2 P st < optNorm1 P st
      · rw [if_pos hcmp]
        exact (smStep2_spec P xs ys st out hinv ht2).1
      · rw [if_neg hcmp]
        exact (smStep1_spec P xs ys st out hinv ht1).1
    · rw [if_neg (by simp [h2]), if_pos h1]
      exact (smStep1_spec P xs ys st out hinv ht1).1
  · have h2 : appealing2 P st = true := by
      rcases Bool.or_eq_true_iff.mp hor with h | h
      · exact absurd h h1
      · exact h
    have ht2 : (smTop2 P st).isSome = true := (Bool.and_eq_true_iff.mp h2).1
    rw [if_neg (by simp [h1]), if_neg h1]
    exact (smStep2_spec P xs ys st out hinv ht2).1

/-- The optimistic loop body never empties a nonempty heap. -/
theorem smLoopBStep_heap_ne {T : Type} (P : SmergerParams T) (st : SmState T)
    (hne : st.heap ≠ []) : (smLoopBStep P st).heap ≠ [] := by
  unfold smLoopBStep
  by_cases hb : (appealing1 P st && appealing2 P st) = true
  · rw [if_pos hb]
    by_cases hcmp : optNorm2 P st < optNorm1 P st
    · rw [if_pos hcmp]
      exact smStep2_heap_ne P st hne
    · rw [if_neg hcmp]
      exact smStep1_heap_ne P st hne
  · rw [if_neg hb]
    by_cases h1 : appealing1 P st = true
    · rw [if_pos h1]
      exact smStep1_heap_ne P st hne
    · rw [if_neg h1]
      exact smStep2_heap_ne P st hne

/-- The optimistic loop preserves the invariant. -/
theorem smLoopB_inv {T : Type} (P : SmergerParams T) (xs ys : List T) :
    ∀ (fuel : ℕ) (st : SmState T) (out : List T), SmInv P xs ys st out →
      SmInv P xs ys (smLoopB P fuel st) out := by
  intro fuel
  induction fuel with
  | zero => exact fun st out h => h
  | succ k ih =>
    intro st out h
    rw [smLoopB]
    by_cases hc : smLoopBCond P st = true
    · rw [if_pos hc]
      exact ih _ _ (smLoopBStep_spec P xs ys st out h hc)
    · rw [if_neg hc]
      exact h

/-- The optimistic loop never empties a nonempty heap. -/
theorem smLoopB_heap_ne {T : Type} (P : SmergerParams T) :
    ∀ (fuel : ℕ) (st : SmState T), st.heap ≠ [] → (smLoopB P fuel st).heap ≠ [] := by
  intro fuel
  induction fuel with
  | zero => exact fun st h => h
  | succ k ih =>
    intro st h
    rw [smLoopB]
    by_cases hc : smLoopBCond P st = true
    · rw [if_pos hc]
      exact ih _ (smLoopBStep_heap_ne P st h)
    · rw [if_neg hc]
      exact h

/-- The number of elements already emitted never exceeds the number of
input pairs. -/
theorem smInv_out_length {T : Type} (P : SmergerParams T) (xs ys : List T)
    (st : SmState T) (out : List T) (hinv : SmInv P xs ys st out) :
    out.length ≤ xs.length * ys.length := by
  have hcard := congrArg Multiset.card hinv.pairs
  simp only [Multiset.coe_card, List.length_append] at hcard
  have htp : (targetPairs P st.s1.seen st.s2.seen).length ≤
      st.s1.seen.length * st.s2.seen.length := by
    calc (targetPairs P st.s1.seen st.s2.seen).length
        ≤ (st.s1.seen ×ˢ st.s2.seen).length := List.length_filterMap_le _ _
      _ = st.s1.seen.length * st.s2.seen.length := List.length_product _ _
  have h1 : st.s1.seen.length ≤ xs.length := by
    have := congrArg Multiset.card hinv.inv1.conserve
    simp only [Multiset.coe_card, List.length_append] at this
    omega
  have h2 : st.s2.seen.length ≤ ys.length := by
    have := congrArg Multiset.card hinv.inv2.conserve
    simp only [Multiset.coe_card, List.length_append] at this
    omega
  have := Nat.mul_le_mul h1 h2
  omega

/-- A stream that saw nothing and has no top had an empty input. -/
theorem streamExhausted_nil {T : Type} (lt : T → T → Bool) (xs : List T) (s : SmStream T)
    (hinv : SmStreamInv xs s) (hseen : s.seen = [])
    (htop : (peekerTop? lt s.peeker).isSome = false) : xs = [] := by
  have hheap : s.peeker.heap = [] := by
    rw [peekerTop?_isSome] at htop
    cases hh : s.peeker.heap with
    | nil => rfl
    | cons a l =>
      rw [hh] at htop
      simp at htop
  have hts := hinv.drained hheap
  have := hinv.conserve
  rw [hseen, hheap, hts] at this
  have hperm := Multiset.coe_eq_coe.mp this
  simpa using hperm.symm.eq_nil

/-- The two initial steps of `Smerger.initialize` establish the smerger
invariant with nothing emitted, starting from fresh streams. -/
theorem smInitSteps_inv {T : Type} (P : SmergerParams T) (xs ys : List T) (st : SmState T)
    (h1 : SmStreamInv xs st.s1) (h2 : SmStreamInv ys st.s2)
    (e1 : st.s1.seen = []) (e2 : st.s2.seen = []) (eh : st.heap = []) :
    SmInv P xs ys
      (if (smTop2 P (if (smTop1 P st).isSome then smStep1 P st else st)).isSome then
        smStep2 P (if (smTop1 P st).isSome then smStep1 P st else st)
      else (if (smTop1 P st).isSome then smStep1 P st else st)) [] := by
  have hstage1 : ∀ st1 : SmState T, st1 = (if (smTop1 P st).isSome then smStep1 P st else st) →
      SmStreamInv xs st1.s1 ∧ SmStreamInv ys st1.s2 ∧
      (st1.s1.seen = [] → xs = []) ∧ st1.s2.seen = [] ∧ st1.heap = [] ∧
      st1.s2 = st.s2 := by
    intro st1 hst1
    by_cases ht1 : (smTop1 P st).isSome = true
    · rw [if_pos ht1] at hst1
      obtain ⟨t, s1', hnext, hseen, hinv1', hbest', hrem⟩ :=
        smStreamNext?_spec P xs st.s1 h1 ht1
      have hstep : smStep1 P st =
          { st with
            s1 := s1'
            heap := (st.s2.seen.filterMap (fun y => P.merger t y)).foldl heapPush st.heap } := by
        simp [smStep1, hnext]
      rw [hstep] at hst1
      subst hst1
      refine ⟨hinv1', h2, ?_, e2, ?_, rfl⟩
      · intro hc
        rw [hseen, e1] at hc
        simp at hc
      · show (st.s2.seen.filterMap (fun y => P.merger t y)).foldl heapPush st.heap = []
        rw [e2, eh]
        rfl
    · rw [if_neg ht1] at hst1
      subst hst1
      refine ⟨h1, h2, ?_, e2, eh, rfl⟩
      intro _
      exact streamExhausted_nil P.lt xs st1.s1 h1 e1 (by simpa using ht1)
  obtain ⟨g1, g2, gseed1, gseen2, gheap, gs2⟩ := hstage1 _ rfl
  set st1 := (if (smTop1 P st).isSome then smStep1 P st else st) with hst1def
  by_cases ht2 : (smTop2 P st1).isSome = true
  · rw [if_pos ht2]
    obtain ⟨t, s2', hnext, hseen, hinv2', hbest', hrem⟩ :=
      smStreamNext?_spec P ys st1.s2 g2 ht2
    have hstep : smStep2 P st1 =
        { st1 with
          s2 := s2'
          heap := (st1.s1.seen.filterMap (fun x => P.merger x t)).foldl heapPush st1.heap } := by
      simp [smStep2, hnext]
    rw [hstep]
    refine ⟨g1, hinv2', gseed1, ?_, ?_⟩
    · intro hc
      rw [hseen, gseen2] at hc
      simp at hc
    · dsimp only
      rw [hseen, gseen2, gheap, foldl_heapPush_eq]
      have htr : targetPairs P st1.s1.seen ([] : List T) = [] := by
        simp [targetPairs]
      rw [targetPairs_snoc_right P st1.s1.seen [] t, htr]
      simp only [List.append_nil]
      rw [Multiset.coe_eq_coe.mpr (List.reverse_perm _)]
      simp
  · rw [if_neg ht2]
    refine ⟨g1, g2, gseed1, ?_, ?_⟩
    · intro _
      exact streamExhausted_nil P.lt ys st1.s2 g2 gseen2 (by simpa using ht2)
    · rw [gheap, gseen2]
      show (↑([] ++ [] : List T) : Multiset T) = ↑(targetPairs P st1.s1.seen [])
      simp [targetPairs]

/-- With `all_or_nothing` off, the initialized smerger satisfies the
invariant with nothing emitted. -/
theorem smInit_inv {T : Type} (P : SmergerParams T) (hA : P.allOrNothing = false)
    (hd : 1 ≤ P.peekDistance) (xs ys : List T) :
    SmInv P xs ys (smInitState P xs ys) [] := by
  have hs1 : SmStreamInv xs (⟨peekerLoad P.peekDistance xs, [], none⟩ : SmStream T) :=
    ⟨by simpa using peekerLoad_coe P.peekDistance xs,
     peekerLoad_drained P.peekDistance hd xs, rfl⟩
  have hs2 : SmStreamInv ys (⟨peekerLoad P.peekDistance ys, [], none⟩ : SmStream T) :=
    ⟨by simpa using peekerLoad_coe P.peekDistance ys,
     peekerLoad_drained P.peekDistance hd ys, rfl⟩
  have hinit : smInitState P xs ys =
      (if (smTop2 P (if (smTop1 P (⟨⟨peekerLoad P.peekDistance xs, [], none⟩,
            ⟨peekerLoad P.peekDistance ys, [], none⟩, []⟩ : SmState T)).isSome then
          smStep1 P ⟨⟨peekerLoad P.peekDistance xs, [], none⟩,
            ⟨peekerLoad P.peekDistance ys, [], none⟩, []⟩
        else ⟨⟨peekerLoad P.peekDistance xs, [], none⟩,
            ⟨peekerLoad P.peekDistance ys, [], none⟩, []⟩)).isSome then
        smStep2 P (if (smTop1 P (⟨⟨peekerLoad P.peekDistance xs, [], none⟩,
            ⟨peekerLoad P.peekDistance ys, [], none⟩, []⟩ : SmState T)).isSome then
          smStep1 P ⟨⟨peekerLoad P.peekDistance xs, [], none⟩,
            ⟨peekerLoad P.peekDistance ys, [], none⟩, []⟩
        else ⟨⟨peekerLoad P.peekDistance xs, [], none⟩,
            ⟨peekerLoad P.peekDistance ys, [], none⟩, []⟩)
      else (if (smTop1 P (⟨⟨peekerLoad P.peekDistance xs, [], none⟩,
            ⟨peekerLoad P.peekDistance ys, [], none⟩, []⟩ : SmState T)).isSome then
          smStep1 P ⟨⟨peekerLoad P.peekDistance xs, [], none⟩,
            ⟨peekerLoad P.peekDistance ys, [], none⟩, []⟩
        else ⟨⟨peekerLoad P.peekDistance xs, [], none⟩,
            ⟨peekerLoad P.peekDistance ys, [], none⟩, []⟩)) := by
    simp [smInitState, hA]
  rw [hinit]
  exact smInitSteps_inv P xs ys _ hs1 hs2 rfl rfl rfl

/-- The pre-pop state of `Smerger.__next__`: when both prefilters have a
best, run the stepping loop and, if `optimistic` with a nonempty heap, the
optimistic loop. -/
def smPre {T : Type} (P : SmergerParams T) (st : SmState T) : SmState T :=
  if st.s1.best.isSome && st.s2.best.isSome then
    (if P.optimistic && !(smLoopA P (smRemaining st + 1) st).heap.isEmpty then
      smLoopB P (smRemaining (smLoopA P (smRemaining st + 1) st) + 1)
        (smLoopA P (smRemaining st + 1) st)
    else smLoopA P (smRemaining st + 1) st)
  else st

/-- `Smerger.__next__` factored through the pre-pop state. -/
theorem smergerNext?_eq {T : Type} (P : SmergerParams T) (st : SmState T) :
    smergerNext? P st =
      match heapPop? P.lt (smPre P st).heap with
      | none => none
      | some (t, rest) => some (t, { smPre P st with heap := rest }) := rfl

/-- The loops of `__next__` preserve the invariant. -/
theorem smPre_inv {T : Type} (P : SmergerParams T) (xs ys : List T) (st : SmState T)
    (out : List T) (hinv : SmInv P xs ys st out) : SmInv P xs ys (smPre P st) out := by
  unfold smPre
  by_cases hg : (st.s1.best.isSome && st.s2.best.isSome) = true
  · rw [if_pos hg]
    have hA := smLoopA_inv P xs ys (smRemaining st + 1) st out hinv
    by_cases ho : (P.optimistic && !(smLoopA P (smRemaining st + 1) st).heap.isEmpty) = true
    · rw [if_pos ho]
      exact smLoopB_inv P xs ys _ _ out hA
    · rw [if_neg ho]
      exact hA
  · rw [if_neg hg]
    exact hinv

/-- A stream whose peeker has no top has seen exactly its input. -/
theorem streamDone_perm {T : Type} (lt : T → T → Bool) (xs : List T) (s : SmStream T)
    (hinv : SmStreamInv xs s) (htop : (peekerTop? lt s.peeker).isSome = false) :
    (↑s.seen : Multiset T) = ↑xs := by
  have hheap : s.peeker.heap = [] := by
    rw [peekerTop?_isSome] at htop
    cases hh : s.peeker.heap with
    | nil => rfl
    | cons a l =>
      rw [hh] at htop
      simp at htop
  have hts := hinv.drained hheap
  have hc := hinv.conserve
  rw [hheap, hts] at hc
  simpa using hc

/-- Merging permuted inputs gives a permuted output multiset. -/
theorem targetPairs_coe_congr {T : Type} (P : SmergerParams T) {a b c d : List T}
    (h1 : (↑a : Multiset T) = ↑c) (h2 : (↑b : Multiset T) = ↑d) :
    (↑(targetPairs P a b) : Multiset T) = ↑(targetPairs P c d) := by
  rw [Multiset.coe_eq_coe] at h1 h2 ⊢
  unfold targetPairs
  exact (h1.product h2).filterMap _

/-- When `__next__` raises `StopIteration`, everything has been emitted: the
elements yielded so far are exactly the non-`None` merges of input pairs. -/
theorem smergerNext?_none_spec {T : Type} (P : SmergerParams T) (xs ys : List T)
    (st : SmState T) (out : List T) (hinv : SmInv P xs ys st out)
    (hnone : smergerNext? P st = none) :
    (↑out : Multiset T) = ↑(targetPairs P xs ys) := by
  rw [smergerNext?_eq] at hnone
  have hheap : (smPre P st).heap = [] := by
    cases hh : (smPre P st).heap with
    | nil => rfl
    | cons a l =>
      obtain ⟨t, rest, hp⟩ := heapPop?_some P.lt (a :: l) (by simp)
      rw [hh, hp] at hnone
      simp at hnone
  have hpre := smPre_inv P xs ys st out hinv
  by_cases hg : (st.s1.best.isSome && st.s2.best.isSome) = true
  · by_cases ho : (P.optimistic && !(smLoopA P (smRemaining st + 1) st).heap.isEmpty) = true
    · exfalso
      have hAne : (smLoopA P (smRemaining st + 1) st).heap ≠ [] := by
        have h2 := (Bool.and_eq_true_iff.mp ho).2
        intro hc
        rw [hc] at h2
        simp at h2
      have hBne := smLoopB_heap_ne P (smRemaining (smLoopA P (smRemaining st + 1) st) + 1)
        (smLoopA P (smRemaining st + 1) st) hAne
      have hpreEq : smPre P st = smLoopB P
          (smRemaining (smLoopA P (smRemaining st + 1) st) + 1)
          (smLoopA P (smRemaining st + 1) st) := by
        unfold smPre
        rw [if_pos hg, if_pos ho]
      rw [hpreEq] at hheap
      exact hBne hheap
    · have hpreEq : smPre P st = smLoopA P (smRemaining st + 1) st := by
        unfold smPre
        rw [if_pos hg, if_neg ho]
      have hcond := smLoopA_exit P (smRemaining st + 1) st (le_refl _)
      rw [← hpreEq] at hcond
      unfold smLoopACond at hcond
      rw [hheap] at hcond
      simp at hcond
      obtain ⟨ht1, ht2⟩ := hcond
      have hseen1 := streamDone_perm P.lt xs (smPre P st).s1 hpre.inv1
        (by simpa [smTop1] using ht1)
      have hseen2 := streamDone_perm P.lt ys (smPre P st).s2 hpre.inv2
        (by simpa [smTop2] using ht2)
      have hpairs := hpre.pairs
      rw [hheap] at hpairs
      simp only [List.nil_append] at hpairs
      rw [hpairs]
      exact targetPairs_coe_congr P hseen1 hseen2
  · have hpreEq : smPre P st = st := by
      unfold smPre
      rw [if_neg hg]
    rw [hpreEq] at hheap
    have hpairs := hinv.pairs
    rw [hheap] at hpairs
    simp only [List.nil_append] at hpairs
    have hb : st.s1.best.isSome = false ∨ st.s2.best.isSome = false := by
      by_cases h1 : st.s1.best.isSome = true
      · by_cases h2 : st.s2.best.isSome = true
        · exact absurd (by rw [h1, h2]; rfl) hg
        · exact Or.inr (by simpa using h2)
      · exact Or.inl (by simpa using h1)
    rcases hb with h | h
    · have hseen : st.s1.seen = [] := by
        have hbs := hinv.inv1.bestSeen
        rw [h] at hbs
        cases hs : st.s1.seen with
        | nil => rfl
        | cons a l =>
          rw [hs] at hbs
          simp at hbs
      have hxs := hinv.seed1 hseen
      rw [hseen] at hpairs
      have htp : targetPairs P ([] : List T) st.s2.seen = [] := by
        simp [targetPairs]
      rw [htp] at hpairs
      have hout : out = [] := by simpa using hpairs
      rw [hout, hxs]
      simp [targetPairs]
    · have hseen : st.s2.seen = [] := by
        have hbs := hinv.inv2.bestSeen
        rw [h] at hbs
        cases hs : st.s2.seen with
        | nil => rfl
        | cons a l =>
          rw [hs] at hbs
          simp at hbs
      have hys := hinv.seed2 hseen
      rw [hseen] at hpairs
      have htp : targetPairs P st.s1.seen ([] : List T) = [] := by
        simp [targetPairs]
      rw [htp] at hpairs
      have hout : out = [] := by simpa using hpairs
      rw [hout, hys]
      simp [targetPairs]

/-- A successful `__next__` pops the heap: the invariant advances with the
popped element appended to the emitted list. -/
theorem smergerNext?_some_spec {T : Type} (P : SmergerParams T) (xs ys : List T)
    (st : SmState T) (out : List T) (t : T) (st' : SmState T)
    (hinv : SmInv P xs ys st out) (hsome : smergerNext? P st = some (t, st')) :
    SmInv P xs ys st' (out ++ [t]) := by
  rw [smergerNext?_eq] at hsome
  cases hp : heapPop? P.lt (smPre P st).heap with
  | none =>
    rw [hp] at hsome
    simp at hsome
  | some pr =>
    obtain ⟨tp, rest⟩ := pr
    rw [hp] at hsome
    simp only [Option.some.injEq, Prod.mk.injEq] at hsome
    obtain ⟨hte, hst⟩ := hsome
    subst hte
    subst hst
    have hpre := smPre_inv P xs ys st out hinv
    have hperm := heapPop?_perm P.lt (smPre P st).heap tp rest hp
    refine ⟨hpre.inv1, hpre.inv2, hpre.seed1, hpre.seed2, ?_⟩
    show (↑(rest ++ (out ++ [tp])) : Multiset T) =
      ↑(targetPairs P (smPre P st).s1.seen (smPre P st).s2.seen)
    rw [← hpre.pairs]
    rw [Multiset.coe_eq_coe]
    refine ((List.perm_append_comm.append_left rest).trans ?_).trans
      (hperm.append_right out)
    exact List.perm_middle

/-- Exhausting the smerger from an invariant state emits exactly the missing
pairs, given enough fuel. -/
theorem smergerRun_spec {T : Type} (P : SmergerParams T) (xs ys : List T) :
    ∀ (fuel : ℕ) (st : SmState T) (out : List T), SmInv P xs ys st out →
      xs.length * ys.length + 1 ≤ fuel + out.length →
      ∃ res, smergerRun P fuel st = some res ∧
        (↑(out ++ res) : Multiset T) = ↑(targetPairs P xs ys) := by
  intro fuel
  induction fuel with
  | zero =>
    intro st out hinv hfuel
    have hlen := smInv_out_length P xs ys st out hinv
    exact absurd hfuel (by omega)
  | succ k ih =>
    intro st out hinv hfuel
    cases hn : smergerNext? P st with
    | none =>
      refine ⟨[], ?_, ?_⟩
      · simp only [smergerRun, hn]
      · rw [List.append_nil]
        exact smergerNext?_none_spec P xs ys st out hinv hn
    | some pr =>
      obtain ⟨t, st'⟩ := pr
      have hinv' := smergerNext?_some_spec P xs ys st out t st' hinv hn
      obtain ⟨res, hrun, hres⟩ := ih st' (out ++ [t]) hinv'
        (by simp only [List.length_append, List.length_cons, List.length_nil]; omega)
      refine ⟨t :: res, ?_, ?_⟩
      · simp only [smergerRun, hn]
        rw [hrun]
        rfl
      · rw [List.append_assoc] at hres
        simpa using hres

/-- C2: For a Smerger over two finite input streams with trivial prefilters
and `all_or_nothing = False`, repeatedly calling `next` until
`StopIteration` emits, as a multiset, exactly the `merger(x, y)` results
over every pair `(x, y)` of elements of the two input streams, excluding
the pairs for which the merger returns `None`. -/
theorem C2_smerger_complete {T : Type} (P : SmergerParams T) (xs ys : List T)
    (hA : P.allOrNothing = false) (hd : 1 ≤ P.peekDistance) :
    (smergerRun P (xs.length * ys.length + 1) (smInitState P xs ys)).map
        (fun outs => (↑outs : Multiset T)) =
      some ↑(targetPairs P xs ys) := by
  obtain ⟨res, hrun, hres⟩ := smergerRun_spec P xs ys (xs.length * ys.length + 1)
    (smInitState P xs ys) [] (smInit_inv P hA hd xs ys)
    (by simp only [List.length_nil]; omega)
  rw [hrun]
  rw [List.nil_append] at hres
  simp [hres]

/-- Concrete smerger parameters over naturals: the merger keeps a pair iff
its sum is even. -/
def c2Params : SmergerParams ℕ where
  lt := Nat.blt
  merger := fun a b => if (a + b) % 2 == 0 then some (a + b) else none
  normEstimator := fun a b => ((a + b : ℕ) : ℚ)
  normGetter := fun t => (t : ℚ)
  allOrNothing := false
  peekDistance := 1
  optimistic := false
  isEmptyT := fun t => t == 0
  builtEmpty := 0

/-- Witness for C2 at a concrete instance. -/
theorem C2_smerger_complete_witness :
    c2Params.allOrNothing = false ∧ 1 ≤ c2Params.peekDistance ∧
    (smergerRun c2Params (([1, 2] : List ℕ).length * ([3, 4] : List ℕ).length + 1)
        (smInitState c2Params [1, 2] [3, 4])).map (fun outs => (↑outs : Multiset ℕ)) =
      some ↑(targetPairs c2Params [1, 2] [3, 4]) :=
  ⟨rfl, by decide, C2_smerger_complete c2Params [1, 2] [3, 4] rfl (by decide)⟩

/-- Unfolding equation for the stepping loop. -/
theorem smLoopA_succ {T : Type} (P : SmergerParams T) (fuel : ℕ) (st : SmState T) :
    smLoopA P (fuel + 1) st =
      if smLoopACond P st then smLoopA P fuel (smLoopAStep P st) else st := rfl

/-- Unfolding equation for the optimistic loop. -/
theorem smLoopB_succ {T : Type} (P : SmergerParams T) (fuel : ℕ) (st : SmState T) :
    smLoopB P (fuel + 1) st =
      if smLoopBCond P st then smLoopB P fuel (smLoopBStep P st) else st := rfl

/-- Unfolding equation for exhausting a smerger. -/
theorem smergerRun_succ {T : Type} (P : SmergerParams T) (fuel : ℕ) (st : SmState T) :
    smergerRun P (fuel + 1) st =
      match smergerNext? P st with
      | none => some []
      | some (t, st') => (smergerRun P fuel st').map (t :: ·) := rfl

/-- A successful `next` rewrites a run to its tail. -/
theorem smergerRun_succ_some {T : Type} (P : SmergerParams T) (fuel : ℕ)
    (st st' : SmState T) (t : T) (h : smergerNext? P st = some (t, st')) :
    smergerRun P (fuel + 1) st = (smergerRun P fuel st').map (t :: ·) := by
  rw [smergerRun_succ, h]

/-- `StopIteration` ends a run. -/
theorem smergerRun_succ_none {T : Type} (P : SmergerParams T) (fuel : ℕ)
    (st : SmState T) (h : smergerNext? P st = none) :
    smergerRun P (fuel + 1) st = some [] := by
  rw [smergerRun_succ, h]

/-- When both peekers are drained but both prefilters have a best, the
loops of `__next__` do nothing. -/
theorem smPre_noTop {T : Type} (P : SmergerParams T) (st : SmState T)
    (h1 : st.s1.peeker.heap = []) (h2 : st.s2.peeker.heap = [])
    (hb1 : st.s1.best.isSome = true) (hb2 : st.s2.best.isSome = true) :
    smPre P st = st := by
  have ht1 : (smTop1 P st).isSome = false := by
    simp [smTop1, peekerTop?, heapTop?, h1, heapPop?]
  have ht2 : (smTop2 P st).isSome = false := by
    simp [smTop2, peekerTop?, heapTop?, h2, heapPop?]
  have hcl : smLoopACond P st = false := by
    simp [smLoopACond, ht1, ht2]
  have hA1 : smLoopA P (smRemaining st + 1) st = st := by
    rw [smLoopA_succ, hcl]
    rfl
  have hBc : smLoopBCond P st = false := by
    simp [smLoopBCond, appealing1, appealing2, ht1, ht2]
  have hB1 : smLoopB P (smRemaining st + 1) st = st := by
    rw [smLoopB_succ, hBc]
    rfl
  unfold smPre
  rw [hb1, hb2, hA1]
  simp [hB1]

/-- Running a smerger whose peekers are drained and whose heap holds one
element yields exactly that element. -/
theorem smergerRun_two_done {T : Type} (P : SmergerParams T) (sn1 sn2 : List T)
    (b1 b2 z : T) :
    smergerRun P 2
      ⟨⟨⟨[], []⟩, sn1, some b1⟩, ⟨⟨[], []⟩, sn2, some b2⟩, [z]⟩ = some [z] := by
  have hpre1 : smPre P ⟨⟨⟨[], []⟩, sn1, some b1⟩, ⟨⟨[], []⟩, sn2, some b2⟩, [z]⟩ =
      ⟨⟨⟨[], []⟩, sn1, some b1⟩, ⟨⟨[], []⟩, sn2, some b2⟩, [z]⟩ :=
    smPre_noTop P _ rfl rfl rfl rfl
  have hpre2 : smPre P ⟨⟨⟨[], []⟩, sn1, some b1⟩, ⟨⟨[], []⟩, sn2, some b2⟩, []⟩ =
      ⟨⟨⟨[], []⟩, sn1, some b1⟩, ⟨⟨[], []⟩, sn2, some b2⟩, []⟩ :=
    smPre_noTop P _ rfl rfl rfl rfl
  have hn1 : smergerNext? P ⟨⟨⟨[], []⟩, sn1, some b1⟩, ⟨⟨[], []⟩, sn2, some b2⟩, [z]⟩ =
      some (z, ⟨⟨⟨[], []⟩, sn1, some b1⟩, ⟨⟨[], []⟩, sn2, some b2⟩, []⟩) := by
    rw [smergerNext?_eq, hpre1]
    rfl
  have hn2 : smergerNext? P ⟨⟨⟨[], []⟩, sn1, some b1⟩, ⟨⟨[], []⟩, sn2, some b2⟩, []⟩ =
      none := by
    rw [smergerNext?_eq, hpre2]
    rfl
  rw [show (2 : ℕ) = 1 + 1 from rfl, smergerRun_succ_some P 1 _ _ z hn1,
    show (1 : ℕ) = 0 + 1 from rfl, smergerRun_succ_none P 0 _ hn2]
  rfl

/-- C4: For a Smerger constructed with `all_or_nothing = True` and any
validated peek distance: if at initialization one of the two streams'
first (and only) available element is the empty extraction — in either
position — then the smerger yields exactly one element, an empty one, and
then raises `StopIteration`. The other stream is constrained only as the
spec's parenthetical stipulates: if its first peek is empty then it has
nothing further (the empty extraction is returned last from a stream).
The merger of two empty extractions is assumed to be an empty extraction,
and the trivial replacement stream's seeded element is assumed empty, as
holds for `ScoredExtraction.build()` in the source. -/
theorem C4_all_or_nothing_empty {T : Type} (P : SmergerParams T) (e : T) (other : List T)
    (hA : P.allOrNothing = true) (hd : 1 ≤ P.peekDistance)
    (he : P.isEmptyT e = true)
    (hother : ∀ t, peekerTop? P.lt (peekerLoad P.peekDistance other) = some t →
      P.isEmptyT t = true → other = [t])
    (hmerge : ∀ a b, P.isEmptyT a = true → P.isEmptyT b = true →
      ∃ z, P.merger a b = some z ∧ P.isEmptyT z = true)
    (hbuilt : P.isEmptyT P.builtEmpty = true) :
    (∃ z, smergerRun P 2 (smInitState P [e] other) = some [z] ∧ P.isEmptyT z = true) ∧
    (∃ z, smergerRun P 2 (smInitState P other [e]) = some [z] ∧ P.isEmptyT z = true) := by
  have hle : peekerLoad P.peekDistance [e] = (⟨[], [e]⟩ : Peeker T) :=
    peekerLoad_singleton P.peekDistance hd e
  cases htop : peekerTop? P.lt (peekerLoad P.peekDistance other) with
  | none =>
    have hhp : (peekerLoad P.peekDistance other).heap = [] := by
      have hiss : (peekerTop? P.lt (peekerLoad P.peekDistance other)).isSome = false := by
        rw [htop]
        rfl
      rw [peekerTop?_isSome] at hiss
      cases hh : (peekerLoad P.peekDistance other).heap with
      | nil => rfl
      | cons a l =>
        rw [hh] at hiss
        simp at hiss
    obtain ⟨z1, hz1, hz1e⟩ := hmerge e P.builtEmpty he hbuilt
    obtain ⟨z2, hz2, hz2e⟩ := hmerge P.builtEmpty e hbuilt he
    refine ⟨⟨z1, ?_, hz1e⟩, ⟨z2, ?_, hz2e⟩⟩
    · have hinit : smInitState P [e] other =
          ⟨⟨⟨[], []⟩, [e], some e⟩, ⟨⟨[], []⟩, [P.builtEmpty], some P.builtEmpty⟩,
            [z1]⟩ := by
        simp [smInitState, hA, hle, he, hhp, hz1, peekerLoad_nil, Peeker.stepP,
          heapPush, peekerTop?, heapTop?, heapPop?, heapPopAux, smTop1, smTop2,
          smStep1, smStep2, smStreamNext?, peekerNext?, SmStream.add,
          buildTrivialStream]
      rw [hinit]
      exact smergerRun_two_done P [e] [P.builtEmpty] e P.builtEmpty z1
    · have hinit : smInitState P other [e] =
          ⟨⟨⟨[], []⟩, [P.builtEmpty], some P.builtEmpty⟩, ⟨⟨[], []⟩, [e], some e⟩,
            [z2]⟩ := by
        simp [smInitState, hA, hle, he, hhp, hz2, peekerLoad_nil, Peeker.stepP,
          heapPush, peekerTop?, heapTop?, heapPop?, heapPopAux, smTop1, smTop2,
          smStep1, smStep2, smStreamNext?, peekerNext?, SmStream.add,
          buildTrivialStream]
      rw [hinit]
      exact smergerRun_two_done P [P.builtEmpty] [e] P.builtEmpty e z2
  | some t =>
    by_cases hte : P.isEmptyT t = true
    · have hsing := hother t htop hte
      subst hsing
      have hlt : peekerLoad P.peekDistance [t] = (⟨[], [t]⟩ : Peeker T) :=
        peekerLoad_singleton P.peekDistance hd t
      obtain ⟨z1, hz1, hz1e⟩ := hmerge e t he hte
      obtain ⟨z2, hz2, hz2e⟩ := hmerge t e hte he
      refine ⟨⟨z1, ?_, hz1e⟩, ⟨z2, ?_, hz2e⟩⟩
      · have hinit : smInitState P [e] [t] =
            ⟨⟨⟨[], []⟩, [e], some e⟩, ⟨⟨[], []⟩, [t], some t⟩, [z1]⟩ := by
          simp [smInitState, hA, hle, hlt, he, hte, hz1, Peeker.stepP, heapPush,
            peekerTop?, heapTop?, heapPop?, heapPopAux, smTop1, smTop2, smStep1,
            smStep2, smStreamNext?, peekerNext?, SmStream.add]
        rw [hinit]
        exact smergerRun_two_done P [e] [t] e t z1
      · have hinit : smInitState P [t] [e] =
            ⟨⟨⟨[], []⟩, [t], some t⟩, ⟨⟨[], []⟩, [e], some e⟩, [z2]⟩ := by
          simp [smInitState, hA, hle, hlt, he, hte, hz2, Peeker.stepP, heapPush,
            peekerTop?, heapTop?, heapPop?, heapPopAux, smTop1, smTop2, smStep1,
            smStep2, smStreamNext?, peekerNext?, SmStream.add]
        rw [hinit]
        exact smergerRun_two_done P [t] [e] t e z2
    · have hte' : P.isEmptyT t = false := by simpa using hte
      have hpop : ∃ r, heapPop? P.lt (peekerLoad P.peekDistance other).heap =
          some (t, r) := by
        have h1 : heapTop? P.lt (peekerLoad P.peekDistance other).heap = some t := htop
        unfold heapTop? at h1
        cases hp : heapPop? P.lt (peekerLoad P.peekDistance other).heap with
        | none =>
          rw [hp] at h1
          simp at h1
        | some pr =>
          obtain ⟨a, r⟩ := pr
          rw [hp] at h1
          simp at h1
          subst h1
          exact ⟨r, rfl⟩
      obtain ⟨r, hpop⟩ := hpop
      have hpe : ∀ x : T, heapPop? P.lt [x] = some (x, []) := fun x => rfl
      have hpn : heapPop? P.lt ([] : List T) = none := rfl
      obtain ⟨z1, hz1, hz1e⟩ := hmerge e P.builtEmpty he hbuilt
      obtain ⟨z2, hz2, hz2e⟩ := hmerge P.builtEmpty e hbuilt he
      refine ⟨⟨z1, ?_, hz1e⟩, ⟨z2, ?_, hz2e⟩⟩
      · have hinit : smInitState P [e] other =
            ⟨⟨⟨[], []⟩, [e], some e⟩, ⟨⟨[], []⟩, [P.builtEmpty], some P.builtEmpty⟩,
              [z1]⟩ := by
          simp [smInitState, hA, hle, he, hpop, hte', hz1, hpe, hpn, peekerLoad_nil,
            Peeker.stepP, heapPush, peekerTop?, heapTop?,
            smTop1, smTop2, smStep1, smStep2, smStreamNext?, peekerNext?,
            SmStream.add, buildTrivialStream]
        rw [hinit]
        exact smergerRun_two_done P [e] [P.builtEmpty] e P.builtEmpty z1
      · have hinit : smInitState P other [e] =
            ⟨⟨⟨[], []⟩, [P.builtEmpty], some P.builtEmpty⟩, ⟨⟨[], []⟩, [e], some e⟩,
              [z2]⟩ := by
          simp [smInitState, hA, hle, he, hpop, hte', hz2, hpe, hpn, peekerLoad_nil,
            Peeker.stepP, heapPush, peekerTop?, heapTop?,
            smTop1, smTop2, smStep1, smStep2, smStreamNext?, peekerNext?,
            SmStream.add, buildTrivialStream]
        rw [hinit]
        exact smergerRun_two_done P [P.builtEmpty] [e] P.builtEmpty e z2

/-- Concrete all-or-nothing smerger parameters over lists of naturals: the
empty list plays the empty extraction, merging concatenates. -/
def c4Params : SmergerParams (List ℕ) where
  lt := fun a b => Nat.blt a.length b.length
  merger := fun a b => some (a ++ b)
  normEstimator := fun _ _ => 0
  normGetter := fun _ => 0
  allOrNothing := true
  peekDistance := 1
  optimistic := false
  isEmptyT := List.isEmpty
  builtEmpty := []

/-- Witness for C4 at a concrete instance, in both stream orientations. -/
theorem C4_all_or_nothing_empty_witness :
    c4Params.allOrNothing = true ∧ 1 ≤ c4Params.peekDistance ∧
    c4Params.isEmptyT [] = true ∧
    ((∃ z, smergerRun c4Params 2 (smInitState c4Params [[]] [[5]]) = some [z] ∧
        c4Params.isEmptyT z = true) ∧
     (∃ z, smergerRun c4Params 2 (smInitState c4Params [[5]] [[]]) = some [z] ∧
        c4Params.isEmptyT z = true)) :=
  ⟨rfl, by decide, rfl,
    C4_all_or_nothing_empty c4Params [] [[5]] rfl (by decide) rfl
      (by
        intro t htop hte
        have h5 : peekerTop? c4Params.lt (peekerLoad c4Params.peekDistance [[5]]) =
            some [5] := rfl
        have ht5 : [5] = t := Option.some.inj (h5.symm.trans htop)
        rw [← ht5])
      (by
        intro a b ha hb
        cases a with
        | cons x xs => simp [c4Params] at ha
        | nil =>
          cases b with
          | cons x xs => simp [c4Params] at hb
          | nil => exact ⟨[], rfl, rfl⟩)
      rfl⟩

end Blueprint
